import Mathlib

/-!
# Verification of the meeting-scheduling optimization core

This file gives a shallow embedding, in Lean 4, of the Python optimization
core found in `src/backend/dwave_backend.py` (class `DWaveQuantumScheduler`)
and `src/backend/dwave_hybrid_backend.py` (class `DWaveHybridScheduler`):

* the QUBO model builder `_build_bqm`,
* the expertise matcher `_check_expertise_match`,
* the solution decoder `_decode_solution`,
* the greedy classical fallbacks `_classical_fallback` of both classes,
* the orchestrator `optimize` and the CLI error wrapper of `main`.

Python `dict`s are embedded as insertion-ordered association lists with
replace-in-place assignment (matching CPython semantics).  Python numbers
are embedded as `Int`/`Rat` (every numeric literal in the modelled code is
an integer or an exactly representable decimal; all quantities stay far
below 2^53 for the inputs the theorems speak about, so float rounding never
kicks in for the modelled arithmetic, except where a comment notes the
`ℚ`-embedding of a float literal such as `0.1`).  Exceptions are embedded
as `Except String`.
-/

namespace DWaveSched

/-! ## Python dict embedding (insertion-ordered association list) -/

/-- Python `d[k] = v`: replace in place if the key is present, else append. -/
def dSet {κ : Type} [DecidableEq κ] {β : Type} :
    List (κ × β) → κ → β → List (κ × β)
  | [], k, v => [(k, v)]
  | (k', v') :: rest, k, v =>
    if k' = k then (k, v) :: rest else (k', v') :: dSet rest k v

/-- Python `d.get(k, dflt)`. -/
def dGet {κ : Type} [DecidableEq κ] {β : Type} :
    List (κ × β) → κ → β → β
  | [], _, dflt => dflt
  | (k', v') :: rest, k, dflt => if k' = k then v' else dGet rest k dflt

/-- The keys of an embedded dict, in insertion order. -/
def dKeys {κ : Type} {β : Type} (m : List (κ × β)) : List κ :=
  m.map Prod.fst

/-- Python `{f(x): g(x) for x in xs}`: later duplicate keys win.  Lookup of
`k` therefore finds the value of the *last* pair whose key is `k`. -/
def lastAssoc {κ : Type} [DecidableEq κ] {β : Type} :
    List (κ × β) → κ → Option β
  | [], _ => none
  | (k', v) :: rest, k =>
    match lastAssoc rest k with
    | some w => some w
    | none => if k' = k then some v else none

/-! ## Python string helpers -/

/-- Python `s.split(sep)` on a single-character separator, over the character
list of the string: no collapsing of empty fields, `"" ↦ [""]`. -/
def splitChars (sep : Char) : List Char → List (List Char)
  | [] => [[]]
  | c :: rest =>
    if c = sep then [] :: splitChars sep rest
    else
      match splitChars sep rest with
      | [] => [[c]]
      | p :: ps => (c :: p) :: ps

/-- Decimal digits, most significant first, with a structural fuel bound
(so that the definition reduces definitionally; the fuel `n + 1` always
suffices). -/
def natDigitsAux : Nat → Nat → List Char
  | 0, _ => []
  | fuel + 1, n =>
    if n < 10 then [Char.ofNat (48 + n)]
    else natDigitsAux fuel (n / 10) ++ [Char.ofNat (48 + n % 10)]

/-- Decimal digits of a natural number, most significant first
(the embedding of Python `str(n)` / f-string formatting of an `int`). -/
def natDigits (n : Nat) : List Char := natDigitsAux (n + 1) n

/-- `str(n)` for a natural number. -/
def natStr (n : Nat) : String := ⟨natDigits n⟩

/-- Value of a decimal digit character, `none` if not a digit. -/
def digitVal (c : Char) : Option Nat :=
  if 48 ≤ c.toNat ∧ c.toNat ≤ 57 then some (c.toNat - 48) else none

/-- Parse a nonempty all-digit character list as a natural number
(accumulator form). -/
def parseDigitsAux : List Char → Nat → Option Nat
  | [], acc => some acc
  | c :: rest, acc =>
    match digitVal c with
    | some d => parseDigitsAux rest (acc * 10 + d)
    | none => none

/-- Embedding of Python `int(s)` on the strings that can actually appear as
the third `_`-separated field of a variable name: an optional sign followed
by decimal digits.  Returns `none` where `int()` raises `ValueError`.
(Surrounding whitespace and `_` digit grouping, which `int()` also accepts,
cannot occur in the claims settled here and are not modelled.) -/
def pyInt : List Char → Option Int
  | [] => none
  | '-' :: rest =>
    match rest with
    | [] => none
    | _ => (parseDigitsAux rest 0).map fun n => -(n : Int)
  | '+' :: rest =>
    match rest with
    | [] => none
    | _ => (parseDigitsAux rest 0).map fun n => (n : Int)
  | cs => (parseDigitsAux cs 0).map fun n => (n : Int)

/-! ## Data model

JSON request/host objects, with exactly the fields the modelled code reads.
Absent optional fields are `none` (Python `dict.get` default applies).
Importance values are embedded as naturals: the spec's data model declares
`importanceScore` a non-negative number. -/

structure Request where
  id : String
  importance : Option Nat
  importanceScore : Option Nat
  preferredDates : List String
  expertise : List String
  hostName : Option String
  topic : Option String
deriving DecidableEq

structure Host where
  id : String
  name : Option String
  expertise : List String
deriving DecidableEq

/-- `problemData` as received by `optimize`: a JSON object in which the
`requests` / `hosts` fields may be absent (`none`); subscripting an absent
field raises `KeyError`.  The `constraints` field is read but never used by
the modelled code and is omitted. -/
structure ProblemData where
  requests : Option (List Request)
  hosts : Option (List Host)


/-- Variable name `f"{req['id']}_{host['id']}_{slot}"`. -/
def mkVar (reqId hostId : String) (slot : Nat) : String :=
  reqId ++ "_" ++ hostId ++ "_" ++ natStr slot

/-! ## `_check_expertise_match` (dwave_backend.py lines 183-205) -/

/-- Expertise match score: `2` all required tags covered, `1` partial
overlap, `0` no data on either side, `-1` both sides tagged but disjoint. -/
def checkExpertiseMatch (req : Request) (host : Host) : Int :=
  if req.expertise = [] ∨ host.expertise = [] then 0
  else
    let nMatches := (req.expertise.toFinset ∩ host.expertise.toFinset).card
    if req.expertise.toFinset.card ≤ nMatches then 2
    else if 0 < nMatches then 1
    else -1

/-! ## `_build_bqm` (dwave_backend.py lines 94-181) -/

/-- Number of time slots: 8 slots per day for 7 days. -/
def numSlots : Nat := 56

/-- `penalty_multiple_assignments` (line 131), a.k.a. `P_REQ`. -/
def penaltyMultipleAssignments : Int := 500

/-- `penalty_host_conflict` (line 152), a.k.a. `P_HOST`. -/
def penaltyHostConflict : Int := 800

/-- `req.get('importance', 50)`. -/
def importanceOf (req : Request) : Int := (req.importance.getD 50 : Nat)

/-- Phase 1 (lines 112-127): reward linear terms
`linear_terms[var] = -(importance + expertise_match * 20)` for every
request × host × slot combination, in input iteration order. -/
def phase1 (requests : List Request) (hosts : List Host) : List (String × Int) :=
  requests.foldl
    (fun acc req =>
      hosts.foldl
        (fun acc host =>
          let e := checkExpertiseMatch req host
          (List.range numSlots).foldl
            (fun acc slot =>
              dSet acc (mkVar req.id host.id slot) (-(importanceOf req + e * 20)))
            acc)
        acc)
    []

/-- `req_vars` of one request (lines 133-134): all its variables, hosts
outer, slots inner. -/
def reqVars (req : Request) (hosts : List Host) : List String :=
  hosts.flatMap fun host => (List.range numSlots).map fun slot =>
    mkVar req.id host.id slot

/-- Python `[(xs[i], xs[j]) for i in range(len(xs)) for j in range(i+1, len(xs))]`:
the ordered pairs produced by `for i, v1 in enumerate(xs): for v2 in xs[i+1:]`. -/
def pyPairs {α : Type} : List α → List (α × α)
  | [] => []
  | x :: rest => (rest.map fun y => (x, y)) ++ pyPairs rest

/-- `tuple(sorted([u, v]))` under Python string comparison (both Python and
Lean compare strings lexicographically by code point). -/
def pairKey (u v : String) : String × String :=
  if v < u then (v, u) else (u, v)

/-- Phase 2, linear part (lines 141-143): fold the one-hot expansion
`-P * x_i` into the linear terms of every variable of every request. -/
def phase2lin (requests : List Request) (hosts : List Host)
    (lin : List (String × Int)) : List (String × Int) :=
  requests.foldl
    (fun acc req =>
      (reqVars req hosts).foldl
        (fun acc v => dSet acc v (dGet acc v 0 - penaltyMultipleAssignments))
        acc)
    lin

/-- Phase 2, quadratic part (lines 145-149): `2*P` on every unordered pair
of variables of one request. -/
def phase2quad (requests : List Request) (hosts : List Host)
    (quad : List ((String × String) × Int)) : List ((String × String) × Int) :=
  requests.foldl
    (fun acc req =>
      (pyPairs (reqVars req hosts)).foldl
        (fun acc p =>
          let key := pairKey p.1 p.2
          dSet acc key (dGet acc key 0 + 2 * penaltyMultipleAssignments))
        acc)
    quad

/-- `host_slot_vars` (line 155): the variables of all requests at one fixed
(host, slot). -/
def hostSlotVars (requests : List Request) (host : Host) (slot : Nat) :
    List String :=
  requests.map fun req => mkVar req.id host.id slot

/-- Phase 3 (lines 151-161): penalty `P_HOST` on every unordered pair of
distinct requests at the same (host, slot). -/
def phase3 (requests : List Request) (hosts : List Host)
    (quad : List ((String × String) × Int)) : List ((String × String) × Int) :=
  hosts.foldl
    (fun acc host =>
      (List.range numSlots).foldl
        (fun acc slot =>
          (pyPairs (hostSlotVars requests host slot)).foldl
            (fun acc p =>
              let key := pairKey p.1 p.2
              dSet acc key (dGet acc key 0 + penaltyHostConflict))
            acc)
        acc)
    quad

/-- Phase 4 (lines 163-172): `-10` bonus on the first 24 slots of every
variable of a request with a nonempty `preferredDates` list, guarded by a
membership test. -/
def phase4 (requests : List Request) (hosts : List Host)
    (lin : List (String × Int)) : List (String × Int) :=
  requests.foldl
    (fun acc req =>
      if req.preferredDates ≠ [] then
        hosts.foldl
          (fun acc host =>
            (List.range 24).foldl
              (fun acc slot =>
                let v := mkVar req.id host.id slot
                if v ∈ dKeys acc then dSet acc v (dGet acc v 0 - 10) else acc)
              acc)
          acc
      else acc)
    lin

/-- The linear terms of the produced model: phases 1, 2 and 4 in program
order (they are the only writers of `linear_terms`). -/
def buildLinear (requests : List Request) (hosts : List Host) :
    List (String × Int) :=
  phase4 requests hosts (phase2lin requests hosts (phase1 requests hosts))

/-- The quadratic terms of the produced model: phases 2 and 3 in program
order (they are the only writers of `quadratic_terms`). -/
def buildQuadratic (requests : List Request) (hosts : List Host) :
    List ((String × String) × Int) :=
  phase3 requests hosts (phase2quad requests hosts [])

/-- `BinaryQuadraticModel(linear_terms, quadratic_terms, 'BINARY')`: dimod
stores the two dicts as given (the keys produced above are already
canonical: sorted pairs of distinct variables). -/
structure BQM where
  linear : List (String × Int)
  quadratic : List ((String × String) × Int)


/-- `_build_bqm` on materialized request/host lists. -/
def buildModel (requests : List Request) (hosts : List Host) : BQM :=
  { linear := buildLinear requests hosts
    quadratic := buildQuadratic requests hosts }

/-- `bqm.variables`: every variable of the model, in order of first
appearance in the linear then the quadratic terms (dimod semantics). -/
def bqmVariables (m : BQM) : List String :=
  (dKeys m.linear ++ (m.quadratic.flatMap fun p => [p.1.1, p.1.2])).foldl
    (fun acc v => if v ∈ acc then acc else acc ++ [v]) []

/-- `_build_bqm(problem_data)` itself: subscripting `problem_data` raises
`KeyError` when a field is absent (lines 98-99). -/
def buildBQM (pd : ProblemData) : Except String BQM :=
  match pd.requests with
  | none => .error "KeyError: requests"
  | some requests =>
    match pd.hosts with
    | none => .error "KeyError: hosts"
    | some hosts => .ok (buildModel requests hosts)

/-! ## Date arithmetic for `datetime(2025, 11, 15) + timedelta(days=d)`
followed by `strftime('%Y-%m-%d')` (dwave_backend.py lines 236-239, 262).

Proleptic Gregorian day-number conversion (the civil-from-days algorithm),
with the year range 1..9999 of Python `datetime` enforced: outside it the
addition raises `OverflowError`, embedded as `none`. -/

/-- Days since 1970-01-01 of a proleptic Gregorian date. -/
def daysFromCivil (y : Int) (m d : Nat) : Int :=
  let y' : Int := if m ≤ 2 then y - 1 else y
  let era : Int := y'.fdiv 400
  let yoe : Nat := (y' - era * 400).toNat
  let mp : Nat := if 2 < m then m - 3 else m + 9
  let doy : Nat := (153 * mp + 2) / 5 + d - 1
  let doe : Nat := yoe * 365 + yoe / 4 - yoe / 100 + doy
  era * 146097 + (doe : Int) - 719468

/-- Date of a day number (days since 1970-01-01): `(year, month, day)`. -/
def civilFromDays (z0 : Int) : Int × Nat × Nat :=
  let z : Int := z0 + 719468
  let era : Int := z.fdiv 146097
  let doe : Nat := (z - era * 146097).toNat
  let yoe : Nat := (doe - doe / 1460 + doe / 36524 - doe / 146096) / 365
  let y : Int := (yoe : Int) + era * 400
  let doy : Nat := doe - (365 * yoe + yoe / 4 - yoe / 100)
  let mp : Nat := (5 * doy + 2) / 153
  let d : Nat := doy - (153 * mp + 2) / 5 + 1
  let m : Nat := if mp < 10 then mp + 3 else mp - 9
  (if m ≤ 2 then y + 1 else y, m, d)

/-- Zero-pad a natural number to at least `w` digits. -/
def padNat (w : Nat) (n : Nat) : String :=
  ⟨List.replicate (w - (natDigits n).length) '0' ++ natDigits n⟩

/-- `strftime('%Y-%m-%d')` of a (year, month, day) with `1 ≤ year ≤ 9999`. -/
def formatDate (y : Int) (m d : Nat) : String :=
  padNat 4 y.toNat ++ "-" ++ padNat 2 m ++ "-" ++ padNat 2 d

/-- `(datetime(2025, 11, 15) + timedelta(days=dayOffset)).strftime('%Y-%m-%d')`;
`none` models the `OverflowError` raised outside `datetime`'s year range. -/
def slotDateStr (dayOffset : Int) : Option String :=
  let c := civilFromDays (daysFromCivil 2025 11 15 + dayOffset)
  if 1 ≤ c.1 ∧ c.1 ≤ 9999 then some (formatDate c.1 c.2.1 c.2.2)
  else none

/-- `time_mapping` (lines 242-251): 8 slots per day, 09:00-18:00 with a
lunch gap. -/
def timeMapping : List (String × String) :=
  [("09:00", "10:00"), ("10:00", "11:00"), ("11:00", "12:00"),
   ("13:00", "14:00"), ("14:00", "15:00"), ("15:00", "16:00"),
   ("16:00", "17:00"), ("17:00", "18:00")]

/-! ## `_decode_solution` (dwave_backend.py lines 207-270) -/

/-- One entry of the decoded schedule (lines 256-267). -/
structure Meeting where
  requestId : String
  hostId : String
  hostName : String
  attendeeName : String
  topic : String
  date : String
  startTime : String
  endTime : String
  importance : Int
  slot : Int


/-- The schedule entry built for a resolved (request, host, slot); the date
string is total here because callers establish `slotDateStr` succeeds. -/
def meetingOf (req : Request) (host : Host) (slot : Int) : Meeting :=
  { requestId := req.id
    hostId := host.id
    hostName := host.name.getD "Unknown"
    attendeeName := req.hostName.getD "Unknown"
    topic := req.topic.getD "Meeting"
    date := (slotDateStr (slot.fdiv 8)).getD ""
    startTime := (timeMapping.getD (slot.emod 8).toNat ("", "")).1
    endTime := (timeMapping.getD (slot.emod 8).toNat ("", "")).2
    importance := importanceOf req
    slot := slot }

/-- The loop body of `_decode_solution` over the `solution.items()` list.
`value == 1` is the activity test (line 218); variables with fewer than 3
`_`-separated parts are skipped (line 221); a non-integer third part makes
`int(parts[2])` raise `ValueError` (line 224); failed request/host lookups
are skipped (line 230); a date outside `datetime`'s range raises
`OverflowError`. -/
def decodeItems (reqMap : String → Option Request) (hostMap : String → Option Host) :
    List (String × Rat) → Except String (List Meeting)
  | [] => .ok []
  | (varName, value) :: rest =>
    if value = 1 then
      let parts := splitChars '_' varName.data
      if 3 ≤ parts.length then
        match pyInt (parts.getD 2 []) with
        | none => .error "ValueError: invalid literal for int()"
        | some slot =>
          match reqMap ⟨parts.getD 0 []⟩, hostMap ⟨parts.getD 1 []⟩ with
          | some req, some host =>
            match slotDateStr (slot.fdiv 8) with
            | none => .error "OverflowError: date value out of range"
            | some _ =>
              if (slot.emod 8).toNat < timeMapping.length then
                (decodeItems reqMap hostMap rest).map
                  (fun ms => meetingOf req host slot :: ms)
              else decodeItems reqMap hostMap rest
          | _, _ => decodeItems reqMap hostMap rest
      else decodeItems reqMap hostMap rest
    else decodeItems reqMap hostMap rest

/-- `requests_map = {req['id']: req for req in requests}` followed by
`.get` (later duplicate ids win, as in a Python dict comprehension). -/
def reqLookup (requests : List Request) (i : String) : Option Request :=
  lastAssoc (requests.map fun r => (r.id, r)) i

/-- `hosts_map = {host['id']: host for host in hosts}` followed by `.get`. -/
def hostLookup (hosts : List Host) (i : String) : Option Host :=
  lastAssoc (hosts.map fun h => (h.id, h)) i

/-- `_decode_solution(solution, problem_data)` on materialized request/host
lists. -/
def decodeSolution (solution : List (String × Rat))
    (requests : List Request) (hosts : List Host) :
    Except String (List Meeting) :=
  decodeItems (reqLookup requests) (hostLookup hosts) solution

/-- `_decode_solution` reading its lists from `problem_data` (lines 213-214
subscript and raise `KeyError` when absent). -/
def decodeSolutionPD (solution : List (String × Rat)) (pd : ProblemData) :
    Except String (List Meeting) :=
  match pd.requests with
  | none => .error "KeyError: requests"
  | some requests =>
    match pd.hosts with
    | none => .error "KeyError: hosts"
    | some hosts => decodeSolution solution requests hosts

/-! ## Python `sorted(..., key=..., reverse=True)`

Stable descending sort by a natural-number key, as an insertion sort:
an element is inserted in front of the first element whose key is `≤` its
own, so elements with equal keys keep their input order (CPython's sort is
stable, and `reverse=True` does not reorder equal elements). -/

/-- Insert into a descending-sorted list, before the first `≤`-key entry. -/
def insertDesc {α : Type} (key : α → Nat) (x : α) : List α → List α
  | [] => [x]
  | y :: ys => if key y ≤ key x then x :: y :: ys else y :: insertDesc key x ys

/-- `sorted(xs, key=key, reverse=True)` (stable). -/
def pySortDesc {α : Type} (key : α → Nat) : List α → List α
  | [] => []
  | x :: xs => insertDesc key x (pySortDesc key xs)

/-! ## `_classical_fallback` of `DWaveQuantumScheduler`
(dwave_backend.py lines 367-409) -/

/-- The inner `for host in hosts` loop of the greedy assignment
(lines 385-392): the first host for which `slot_index < 56` and
`slot_index` is unoccupied receives the assignment (then `break`); with no
`break`, later hosts are still scanned at the same `slot_index`. -/
def fbInner (slotIndex : Nat) (assigned : List Nat) :
    List Host → Option (String × Nat)
  | [] => none
  | host :: rest =>
    if slotIndex < 56 then
      if slotIndex ∉ assigned then some (host.id, slotIndex)
      else fbInner slotIndex assigned rest
    else fbInner slotIndex assigned rest

/-- The outer `for req in sorted_requests` loop (lines 384-392), returning
the activated (requestId, hostId, slot) triples in assignment order.  After
an assignment at `slot_index`, the slot is added to `assigned_slots` and
`slot_index` is incremented (the returned slot is the current
`slot_index`). -/
def fbLoop (hosts : List Host) :
    List Request → Nat → List Nat → List (String × String × Nat)
  | [], _, _ => []
  | req :: rest, slotIndex, assigned =>
    match fbInner slotIndex assigned hosts with
    | some hs => (req.id, hs.1, hs.2) :: fbLoop hosts rest (hs.2 + 1) (assigned ++ [hs.2])
    | none => fbLoop hosts rest slotIndex assigned

/-- `sorted(requests, key=lambda r: r.get('importanceScore', 0), reverse=True)`
(line 381). -/
def fbSorted (requests : List Request) : List Request :=
  pySortDesc (fun r => r.importanceScore.getD 0) requests

/-- The (requestId, hostId, slot) triples the fallback activates. -/
def fbTriples (requests : List Request) (hosts : List Host) :
    List (String × String × Nat) :=
  fbLoop hosts (fbSorted requests) 0 []

/-- The fallback `solution` dict: the activated variables at value 1, then
every other request × host × slot variable zero-filled (lines 394-400). -/
def fbSolution (requests : List Request) (hosts : List Host) :
    List (String × Rat) :=
  let sol1 := (fbTriples requests hosts).map fun t =>
    (mkVar t.1 t.2.1 t.2.2, (1 : Rat))
  requests.foldl
    (fun acc req =>
      hosts.foldl
        (fun acc host =>
          (List.range numSlots).foldl
            (fun acc slot =>
              let v := mkVar req.id host.id slot
              if v ∈ dKeys acc then acc else dSet acc v 0)
            acc)
        acc)
    sol1

/-- The result dict of the backend: the union of the keys the different
paths emit, absent keys as `none` (path-dependent extras such as timing and
chain-break statistics, which no claim mentions, are omitted). -/
structure ResultDict where
  solution : List (String × Rat)
  energy : Rat
  status : String
  quantum_backend : String
  active_assignments : Option Nat := none
  success_rate : Option Rat := none
  schedule : Option (List Meeting) := none
  quboStats : Option (Nat × Nat × Nat × Rat) := none
  metrics : Option (Nat × Nat × Rat) := none
  error : Option String := none


/-- `_classical_fallback` on materialized lists (lines 377-409).  The
energy sums `importanceScore` (default 50) over the first
`len(assigned_slots)` entries of the sorted request list; each assignment
adds a fresh slot to `assigned_slots`, so that count is the number of
activated triples.  Note the returned dict carries no `schedule` key. -/
def classicalFallbackCore (requests : List Request) (hosts : List Host) :
    ResultDict :=
  let k := (fbTriples requests hosts).length
  { solution := fbSolution requests hosts
    energy := -((((fbSorted requests).take k).map
      fun r => ((r.importanceScore.getD 50 : Nat) : Rat)).sum)
    status := "FALLBACK"
    quantum_backend := "classical_simulation"
    active_assignments := some k
    success_rate := some ((k : Rat) / ((max 1 requests.length : Nat) : Rat) * 100) }

/-- `_classical_fallback(problem_data)`: lines 374-375 subscript
`problem_data` and raise `KeyError` on an absent field. -/
def classicalFallback (pd : ProblemData) : Except String ResultDict :=
  match pd.requests with
  | none => .error "KeyError: requests"
  | some requests =>
    match pd.hosts with
    | none => .error "KeyError: hosts"
    | some hosts => .ok (classicalFallbackCore requests hosts)

/-! ## `_quantum_solve`, `_hybrid_solve` and `optimize`
(dwave_backend.py lines 43-92, 273-365) -/

/-- The part of a dimod sampleset the modelled code reads:
`sampleset.first.sample` and `sampleset.first.energy`.  The call
`self.sampler.sample(...)` is the engine's only external collaborator; its
outcome (a sampleset, or a raised error) is a parameter of `optimize`. -/
structure SampleSet where
  sample : List (String × Rat)
  energy : Rat


/-- Python `int(x)` on a float/int value: truncation toward zero. -/
def pyTrunc (q : Rat) : Int := if q < 0 then ⌈q⌉ else ⌊q⌋

/-- `_quantum_solve` after the sampler returned (lines 299-329): counts the
active assignments on the raw best sample and converts the solution values
with `int(...)`. -/
def quantumSolve (ss : SampleSet) : ResultDict :=
  let active := (ss.sample.filter fun e => e.2 == 1).length
  { solution := ss.sample.map fun e => (e.1, (pyTrunc e.2 : Rat))
    energy := ss.energy
    status := "SUCCESS"
    quantum_backend := "dwave_simulated_annealing"
    active_assignments := some active
    success_rate := some ((active : Rat) / ((max 1 ss.sample.length : Nat) : Rat) * 100) }

/-- `_hybrid_solve` (lines 331-341): `self.hybrid_sampler` is always `None`
(set in `__init__`), so the hybrid path immediately returns
`_classical_fallback(problem_data)`. -/
def hybridSolve (pd : ProblemData) : Except String ResultDict :=
  classicalFallback pd

/-- The body of the `try:` block of `optimize` (lines 50-86): build the
BQM, dispatch on model size, decode the schedule from the result's
solution, and attach schedule, QUBO statistics and metrics. -/
def optimizeBody (pd : ProblemData) (sampler : Except String SampleSet) :
    Except String ResultDict := do
  let bqm ← buildBQM pd
  let result ←
    if 5000 < (bqmVariables bqm).length then hybridSolve pd
    else do
      let ss ← sampler
      pure (quantumSolve ss)
  let schedule ← decodeSolutionPD result.solution pd
  pure { result with
    schedule := some schedule
    quboStats := some ((bqmVariables bqm).length, (bqmVariables bqm).length,
      bqm.quadratic.length, result.energy)
    metrics := some (schedule.length, (pd.requests.getD []).length,
      result.success_rate.getD 0) }

/-- `optimize` with a ghost flag: the flag is `true` exactly when the
`except` handler (lines 88-92) ran and invoked `_classical_fallback`. -/
def optimizeT (pd : ProblemData) (sampler : Except String SampleSet) :
    Bool × Except String ResultDict :=
  match optimizeBody pd sampler with
  | .ok r => (false, .ok r)
  | .error _ => (true, classicalFallback pd)

/-- `optimize(problem_data)` (lines 43-92): a returned `.error` models an
exception propagating out of the call (the fallback itself raised). -/
def optimize (pd : ProblemData) (sampler : Except String SampleSet) :
    Except String ResultDict :=
  (optimizeT pd sampler).2

/-- The `except` wrapper of `main` (lines 441-449): any exception escaping
the call is converted into an ERROR result dict with no schedule. -/
def runMain (pd : ProblemData) (sampler : Except String SampleSet) :
    ResultDict :=
  match optimize pd sampler with
  | .ok r => r
  | .error e =>
    { solution := []
      energy := 999999
      status := "ERROR"
      quantum_backend := "error"
      error := some e }

/-! ## `_classical_fallback` of `DWaveHybridScheduler`
(dwave_hybrid_backend.py lines 240-299) -/

/-- The argmax scan over `for host in hosts: for slot in range(56)`
(lines 257-272): skip occupied (host, slot) pairs, score the free ones by
`importanceScore + (56 - slot) * 0.1` (the float literal `0.1` embeds as
`1/10 : ℚ`; only score comparisons depend on it) and keep the first
strictly-better candidate. -/
def hybInner (req : Request) (hosts : List Host)
    (usage : List ((String × Nat) × String)) : Option (String × Nat) :=
  ((hosts.flatMap fun h => (List.range numSlots).map fun s => (h.id, s)).foldl
    (fun st hs =>
      if hs ∈ usage.map Prod.fst then st
      else
        let score : Rat :=
          ((req.importanceScore.getD 50 : Nat) : Rat) +
            ((56 : Rat) - (hs.2 : Nat)) * (1 / 10)
        if st.1 < score then (score, some hs) else st)
    ((-1 : Rat), (none : Option (String × Nat)))).2

/-- The outer request loop (lines 257-279): each request takes its best
free (host, slot), which is recorded in `slot_usage`. -/
def hybLoop (hosts : List Host) :
    List Request → List ((String × Nat) × String) →
    List (String × String × Nat)
  | [], _ => []
  | req :: rest, usage =>
    match hybInner req hosts usage with
    | none => hybLoop hosts rest usage
    | some hs => (req.id, hs.1, hs.2) :: hybLoop hosts rest (dSet usage hs req.id)

/-- The (requestId, hostId, slot) triples the hybrid-backend fallback
activates (same stable descending sort by `importanceScore`, line 255). -/
def hybTriples (requests : List Request) (hosts : List Host) :
    List (String × String × Nat) :=
  hybLoop hosts (pySortDesc (fun r => r.importanceScore.getD 0) requests) []

/-- Collision-freedom of the string variable encoding: ids pairwise
distinct (the data model declares them unique) and underscore-free (an
underscore inside an id makes the `{rid}_{hid}_{slot}` encoding
ambiguous). -/
def GoodIds (requests : List Request) (hosts : List Host) : Prop :=
  (requests.map Request.id).Nodup ∧ (hosts.map Host.id).Nodup ∧
    (∀ r ∈ requests, '_' ∉ r.id.data) ∧ ∀ h ∈ hosts, '_' ∉ h.id.data

instance (requests : List Request) (hosts : List Host) :
    Decidable (GoodIds requests hosts) := by
  unfold GoodIds
  infer_instance

/-- The request × host × slot triples, in the Builder's iteration order. -/
def allTriples (requests : List Request) (hosts : List Host) :
    List (Request × Host × Nat) :=
  requests.flatMap fun r => hosts.flatMap fun h =>
    (List.range numSlots).map fun s => (r, h, s)

/-- The variable name of a triple. -/
def linKey (t : Request × Host × Nat) : String := mkVar t.1.id t.2.1.id t.2.2

/-- All variable names, in the Builder's iteration order. -/
def allKeys (requests : List Request) (hosts : List Host) : List String :=
  (allTriples requests hosts).map linKey

/-- The phase-1 reward of a triple. -/
def rewardOf (t : Request × Host × Nat) : Int :=
  -(importanceOf t.1 + checkExpertiseMatch t.1 t.2.1 * 20)

/-- The final linear coefficient of a triple: reward, minus the folded
one-hot penalty, minus the preferred-window bonus the code actually
grants (nonempty `preferredDates` and slot in the first 3 days). -/
def linCoeff (t : Request × Host × Nat) : Int :=
  rewardOf t - penaltyMultipleAssignments -
    (if t.1.preferredDates ≠ [] ∧ t.2.2 < 24 then 10 else 0)

/-- The linear terms the Builder should produce, directly. -/
def directLinear (requests : List Request) (hosts : List Host) :
    List (String × Int) :=
  (allTriples requests hosts).map fun t => (linKey t, linCoeff t)

/-- The request × host × slot triples with a general slot count. -/
def triplesN (requests : List Request) (hosts : List Host) (n : Nat) :
    List (Request × Host × Nat) :=
  requests.flatMap fun r => hosts.flatMap fun h =>
    (List.range n).map fun s => (r, h, s)

/-- The phase-4 key list of one preferred request. -/
def prefKeys (hosts : List Host) (r : Request) : List String :=
  hosts.flatMap fun h => (List.range 24).map fun s => mkVar r.id h.id s

/-- The phase-2 quadratic key list. -/
def reqPairKeys (requests : List Request) (hosts : List Host) :
    List (String × String) :=
  requests.flatMap fun r =>
    (pyPairs (reqVars r hosts)).map fun p => pairKey p.1 p.2

/-- The phase-3 quadratic key list. -/
def hostPairKeys (requests : List Request) (hosts : List Host) :
    List (String × String) :=
  hosts.flatMap fun h => (List.range numSlots).flatMap fun s =>
    (pyPairs (hostSlotVars requests h s)).map fun p => pairKey p.1 p.2

/-- The invariant claimed of every quadratic key: it joins two distinct
in-model variables that share the request id or share the (host id, slot)
pair. -/
def QuadKeyOK (requests : List Request) (hosts : List Host)
    (k : String × String) : Prop :=
  ∃ rid hid s rid2 hid2 s2,
    rid ∈ requests.map Request.id ∧ hid ∈ hosts.map Host.id ∧
    rid2 ∈ requests.map Request.id ∧ hid2 ∈ hosts.map Host.id ∧
    s < numSlots ∧ s2 < numSlots ∧
    k = pairKey (mkVar rid hid s) (mkVar rid2 hid2 s2) ∧
    mkVar rid hid s ≠ mkVar rid2 hid2 s2 ∧
    (rid = rid2 ∨ (hid = hid2 ∧ s = s2))

/-- The (requestId, hostId, slot) triple a variable name de-serializes to,
exactly as the Decoder parses it (split on `_`, at least 3 fields, third
field an integer literal). -/
def parseVar (k : String) : Option (String × String × Int) :=
  let parts := splitChars '_' k.data
  if 3 ≤ parts.length then
    (pyInt (parts.getD 2 [])).map fun z =>
      (⟨parts.getD 0 []⟩, ⟨parts.getD 1 []⟩, z)
  else none

/-- The names of a Sample's active entries (assignment value 1), in order. -/
def activeKeys (sol : List (String × Rat)) : List String :=
  sol.filterMap fun e => if e.2 = 1 then some e.1 else none

/-- The meeting the Decoder builds for a parsed triple, given the lookup
maps (the fallback branch is unreachable when both lookups succeed). -/
def meetingAt (reqMap : String → Option Request)
    (hostMap : String → Option Host) (t : String × String × Int) : Meeting :=
  match reqMap t.1, hostMap t.2.1 with
  | some req, some host => meetingOf req host t.2.2
  | _, _ =>
    meetingOf
      { id := t.1, importance := none, importanceScore := none,
        preferredDates := [], expertise := [], hostName := none,
        topic := none }
      { id := t.2.1, name := none, expertise := [] } t.2.2

/-- `max(|linear weight|)` over the produced model. -/
def maxLinAbs (m : BQM) : Int := (m.linear.map fun p => |p.2|).foldr max 0

/-- The request `{id: "r1", importance: 90}` of the spec's worked example. -/
def rA : Request :=
  { id := "r1", importance := some 90, importanceScore := none,
    preferredDates := [], expertise := [], hostName := none, topic := none }

/-- The request `{id: "r2", importance: 50}` of the spec's worked example. -/
def rB : Request :=
  { id := "r2", importance := some 50, importanceScore := none,
    preferredDates := [], expertise := [], hostName := none, topic := none }

/-- The host `{id: "h1"}` of the spec's worked example. -/
def hA : Host := { id := "h1", name := none, expertise := [] }

/-- Request with id `a`: together with [[c4reqB]], [[c4hostA]], [[c4hostB]]
it makes the string variable encoding collide
(`a + _ + b_7 = a_b + _ + 7`). -/
def c4reqA : Request :=
  { id := "a", importance := some 50, importanceScore := none,
    preferredDates := [], expertise := [], hostName := none, topic := none }

/-- Request with underscored id `a_b`. -/
def c4reqB : Request :=
  { id := "a_b", importance := some 50, importanceScore := none,
    preferredDates := [], expertise := [], hostName := none, topic := none }

/-- Host with underscored id `b_7`. -/
def c4hostA : Host := { id := "b_7", name := none, expertise := [] }

/-- Host with id `7`. -/
def c4hostB : Host := { id := "7", name := none, expertise := [] }

/-- A synthetic Sample with one active variable per request of
`[rA, rB]` (the inactive `zzz` entry is ignored). -/
def c7sol : List (String × Rat) :=
  [("r1_h1_0", 1), ("zzz", 0), ("r2_h1_9", 1)]

/-- The parsed triples of [[c7sol]]'s active entries. -/
def c7L : List (String × String × Int) := [("r1", "h1", 0), ("r2", "h1", 9)]

/-! ## Lemmas about the dict embedding -/

section DictLemmas

variable {κ : Type} [DecidableEq κ] {β : Type}

theorem dKeys_nil : dKeys ([] : List (κ × β)) = [] := rfl

theorem dKeys_cons (p : κ × β) (m : List (κ × β)) :
    dKeys (p :: m) = p.1 :: dKeys m := rfl

theorem dKeys_append (m₁ m₂ : List (κ × β)) :
    dKeys (m₁ ++ m₂) = dKeys m₁ ++ dKeys m₂ := by
  simp [dKeys]

theorem dSet_of_not_mem {m : List (κ × β)} {k : κ} (h : k ∉ dKeys m) (v : β) :
    dSet m k v = m ++ [(k, v)] := by
  induction m with
  | nil => rfl
  | cons p rest ih =>
    rw [dKeys_cons, List.mem_cons] at h
    push_neg at h
    rw [dSet, if_neg (fun hh => h.1 hh.symm), ih h.2, List.cons_append]

theorem dGet_of_mem_nodup {m : List (κ × β)} (hnd : (dKeys m).Nodup)
    {k : κ} {v : β} (h : (k, v) ∈ m) (d : β) : dGet m k d = v := by
  induction m with
  | nil => simp at h
  | cons p rest ih =>
    rw [dKeys_cons, List.nodup_cons] at hnd
    rcases List.mem_cons.1 h with h | h
    · subst h; simp [dGet]
    · have hk : p.1 ≠ k := by
        intro he
        exact hnd.1 (he ▸ (List.mem_map.2 ⟨(k, v), h, rfl⟩))
      rw [dGet, if_neg hk]
      exact ih hnd.2 h

theorem map_if_key_eq_self {m : List (κ × β)} {k : κ} (h : k ∉ dKeys m)
    (f : κ × β → κ × β) :
    (m.map fun p => if p.1 = k then f p else p) = m := by
  induction m with
  | nil => rfl
  | cons p rest ih =>
    rw [dKeys_cons, List.mem_cons] at h
    push_neg at h
    rw [List.map_cons, if_neg (fun hh => h.1 hh.symm), ih h.2]

theorem dKeys_map_of_fst (m : List (κ × β)) (f : κ × β → κ × β)
    (hf : ∀ p, (f p).1 = p.1) : dKeys (m.map f) = dKeys m := by
  simp only [dKeys, List.map_map]
  exact List.map_congr_left fun p _ => hf p

/-- In-place update of a present key in a duplicate-free dict is a
pointwise map. -/
theorem dSet_get_add {m : List (κ × Int)} (hnd : (dKeys m).Nodup)
    {k : κ} (hmem : k ∈ dKeys m) (δ : Int) :
    dSet m k (dGet m k 0 + δ) =
      m.map fun p => if p.1 = k then (p.1, p.2 + δ) else p := by
  induction m with
  | nil => simp [dKeys] at hmem
  | cons p rest ih =>
    obtain ⟨k0, v0⟩ := p
    rw [dKeys_cons, List.nodup_cons] at hnd
    by_cases hk : k0 = k
    · subst hk
      rw [List.map_cons, if_pos rfl,
        map_if_key_eq_self hnd.1 (fun q => (q.1, q.2 + δ))]
      rw [dSet, if_pos rfl, dGet, if_pos rfl]
    · have hmem' : k ∈ dKeys rest := by
        rcases List.mem_cons.1 hmem with h | h
        · exact absurd h.symm hk
        · exact h
      rw [List.map_cons, if_neg hk]
      have hget : dGet ((k0, v0) :: rest) k 0 = dGet rest k 0 := by
        rw [dGet, if_neg hk]
      rw [hget, dSet, if_neg hk, ih hnd.2 hmem']

/-- Folding in-place `+ δ` updates over a duplicate-free key list. -/
theorem foldl_dSet_get_add (δ : Int) :
    ∀ (K : List κ) (m : List (κ × Int)), (dKeys m).Nodup → K.Nodup →
      (∀ k ∈ K, k ∈ dKeys m) →
      K.foldl (fun acc k => dSet acc k (dGet acc k 0 + δ)) m =
        m.map fun p => if p.1 ∈ K then (p.1, p.2 + δ) else p
  | [], m, _, _, _ => by simp
  | k :: K', m, hnd, hK, hsub => by
    rw [List.foldl_cons, dSet_get_add hnd (hsub k (List.mem_cons_self k K')) δ]
    rw [List.nodup_cons] at hK
    have hfst : ∀ p : κ × Int,
        ((fun p => if p.1 = k then (p.1, p.2 + δ) else p) p).1 = p.1 := by
      intro p; by_cases h : p.1 = k <;> simp [h]
    have hkeys := dKeys_map_of_fst m _ hfst
    rw [foldl_dSet_get_add δ K' _ (hkeys ▸ hnd) hK.2
      (fun k' hk' => hkeys ▸ hsub k' (List.mem_cons_of_mem k hk'))]
    rw [List.map_map]
    refine List.map_congr_left fun p _ => ?_
    by_cases h1 : p.1 = k
    · simp [Function.comp, h1, hK.1]
    · by_cases h2 : p.1 ∈ K' <;> simp [Function.comp, List.mem_cons, h1, h2]

/-- Same, with the membership-guarded body of phase 4. -/
theorem foldl_guard_dSet_get_add (δ : Int) :
    ∀ (K : List κ) (m : List (κ × Int)), (dKeys m).Nodup → K.Nodup →
      (∀ k ∈ K, k ∈ dKeys m) →
      K.foldl (fun acc k =>
          if k ∈ dKeys acc then dSet acc k (dGet acc k 0 + δ) else acc) m =
        m.map fun p => if p.1 ∈ K then (p.1, p.2 + δ) else p
  | [], m, _, _, _ => by simp
  | k :: K', m, hnd, hK, hsub => by
    rw [List.foldl_cons, if_pos (hsub k (List.mem_cons_self k K')),
      dSet_get_add hnd (hsub k (List.mem_cons_self k K')) δ]
    rw [List.nodup_cons] at hK
    have hfst : ∀ p : κ × Int,
        ((fun p => if p.1 = k then (p.1, p.2 + δ) else p) p).1 = p.1 := by
      intro p; by_cases h : p.1 = k <;> simp [h]
    have hkeys := dKeys_map_of_fst m _ hfst
    rw [foldl_guard_dSet_get_add δ K' _ (hkeys ▸ hnd) hK.2
      (fun k' hk' => hkeys ▸ hsub k' (List.mem_cons_of_mem k hk'))]
    rw [List.map_map]
    refine List.map_congr_left fun p _ => ?_
    by_cases h1 : p.1 = k
    · simp [Function.comp, h1, hK.1]
    · by_cases h2 : p.1 ∈ K' <;> simp [Function.comp, List.mem_cons, h1, h2]

/-- Folding writes at fresh, pairwise-distinct keys appends the pairs. -/
theorem foldl_dSet_fresh {α : Type} (key : α → κ) (val : α → β) :
    ∀ (L : List α) (m : List (κ × β)), (L.map key).Nodup →
      (∀ x ∈ L, key x ∉ dKeys m) →
      L.foldl (fun acc x => dSet acc (key x) (val x)) m =
        m ++ L.map fun x => (key x, val x)
  | [], m, _, _ => by simp
  | x :: L', m, hnd, hfresh => by
    rw [List.foldl_cons, dSet_of_not_mem (hfresh x (List.mem_cons_self x L')) _]
    rw [List.map_cons, List.nodup_cons] at hnd
    have hfresh' : ∀ y ∈ L', key y ∉ dKeys (m ++ [(key x, val x)]) := by
      intro y hy
      rw [dKeys_append, List.mem_append]
      push_neg
      refine ⟨hfresh y (List.mem_cons_of_mem x hy), ?_⟩
      simp only [dKeys, List.map_cons, List.map_nil, List.mem_singleton]
      exact fun he => hnd.1 (he ▸ List.mem_map.2 ⟨y, hy, rfl⟩)
    rw [foldl_dSet_fresh key val L' _ hnd.2 hfresh']
    simp

theorem dKeys_dSet_sub (m : List (κ × β)) (k : κ) (v : β) :
    dKeys (dSet m k v) ⊆ dKeys m ++ [k] := by
  induction m with
  | nil => simp [dSet, dKeys]
  | cons p rest ih =>
    rw [dSet]
    by_cases h : p.1 = k
    · rw [if_pos h]
      intro a ha
      rcases List.mem_cons.1 ha with ha | ha
      · simp [ha]
      · exact List.mem_append_left _ (List.mem_cons_of_mem _ ha)
    · rw [if_neg h]
      intro a ha
      rcases List.mem_cons.1 ha with ha | ha
      · simp [dKeys_cons, ha]
      · rcases List.mem_append.1 (ih ha) with hb | hb
        · exact List.mem_append_left _ (List.mem_cons_of_mem _ hb)
        · exact List.mem_append_right _ hb

/-- Keys after folding arbitrary-value writes are among the old keys and the
written keys. -/
theorem foldl_dSet_keys_sub {α : Type} (key : α → κ)
    (val : List (κ × β) → α → β) :
    ∀ (L : List α) (m : List (κ × β)),
      dKeys (L.foldl (fun acc x => dSet acc (key x) (val acc x)) m) ⊆
        dKeys m ++ L.map key
  | [], m => by simp
  | x :: L', m => by
    rw [List.foldl_cons]
    intro a ha
    rcases List.mem_append.1
        (foldl_dSet_keys_sub key val L' (dSet m (key x) (val m x)) ha) with hb | hb
    · rcases List.mem_append.1 (dKeys_dSet_sub m (key x) (val m x) hb) with hc | hc
      · exact List.mem_append_left _ hc
      · rw [List.mem_singleton] at hc
        exact List.mem_append_right _ (hc ▸ List.mem_cons_self _ _)
    · exact List.mem_append_right _ (List.mem_cons_of_mem _ hb)

end DictLemmas

/-! ## Lemmas about `pyPairs`, folds over `flatMap`, and the insert fold -/

theorem pyPairs_mem {α : Type} :
    ∀ {l : List α} {p : α × α}, p ∈ pyPairs l → p.1 ∈ l ∧ p.2 ∈ l := by
  intro l
  induction l with
  | nil => intro p hp; simp [pyPairs] at hp
  | cons x xs ih =>
    intro p hp
    rcases List.mem_append.1 hp with hp | hp
    · rcases List.mem_map.1 hp with ⟨y, hy, rfl⟩
      exact ⟨List.mem_cons_self x xs, List.mem_cons_of_mem x hy⟩
    · obtain ⟨h1, h2⟩ := ih hp
      exact ⟨List.mem_cons_of_mem x h1, List.mem_cons_of_mem x h2⟩

theorem pyPairs_ne {α : Type} :
    ∀ {l : List α}, l.Nodup → ∀ {p : α × α}, p ∈ pyPairs l → p.1 ≠ p.2 := by
  intro l
  induction l with
  | nil => intro _ p hp; simp [pyPairs] at hp
  | cons x xs ih =>
    intro hnd p hp
    rw [List.nodup_cons] at hnd
    rcases List.mem_append.1 hp with hp | hp
    · rcases List.mem_map.1 hp with ⟨y, hy, rfl⟩
      exact fun he => hnd.1 (by rw [show x = y from he]; exact hy)
    · exact ih hnd.2 hp

theorem foldl_flatMap {α σ γ : Type} (f : α → List σ) (g : γ → σ → γ) :
    ∀ (l : List α) (b : γ),
      (l.flatMap f).foldl g b = l.foldl (fun b a => (f a).foldl g b) b
  | [], _ => rfl
  | x :: xs, b => by
    rw [List.flatMap_cons, List.foldl_append, List.foldl_cons,
      foldl_flatMap f g xs]

theorem insert_fold_of_fresh {α : Type} [DecidableEq α] :
    ∀ (l acc : List α), (∀ v ∈ l, v ∉ acc) → l.Nodup →
      l.foldl (fun acc v => if v ∈ acc then acc else acc ++ [v]) acc = acc ++ l
  | [], acc, _, _ => by simp
  | x :: l', acc, hfresh, hnd => by
    rw [List.nodup_cons] at hnd
    rw [List.foldl_cons, if_neg (hfresh x (List.mem_cons_self x l'))]
    have hfresh' : ∀ v ∈ l', v ∉ acc ++ [x] := by
      intro v hv
      rw [List.mem_append, List.mem_singleton]
      push_neg
      exact ⟨hfresh v (List.mem_cons_of_mem x hv), fun he => hnd.1 (he ▸ hv)⟩
    rw [insert_fold_of_fresh l' (acc ++ [x]) hfresh' hnd.2]
    simp

theorem insert_fold_of_mem {α : Type} [DecidableEq α] :
    ∀ (l acc : List α), (∀ v ∈ l, v ∈ acc) →
      l.foldl (fun acc v => if v ∈ acc then acc else acc ++ [v]) acc = acc
  | [], acc, _ => rfl
  | x :: l', acc, hsub => by
    rw [List.foldl_cons, if_pos (hsub x (List.mem_cons_self x l'))]
    exact insert_fold_of_mem l' acc fun v hv => hsub v (List.mem_cons_of_mem x hv)

theorem insert_fold_sub {α : Type} [DecidableEq α] :
    ∀ (l acc : List α),
      l.foldl (fun acc v => if v ∈ acc then acc else acc ++ [v]) acc ⊆ acc ++ l
  | [], acc => by simp
  | x :: l', acc => by
    rw [List.foldl_cons]
    intro a ha
    by_cases h : x ∈ acc
    · rw [if_pos h] at ha
      rcases List.mem_append.1 (insert_fold_sub l' acc ha) with hb | hb
      · exact List.mem_append_left _ hb
      · exact List.mem_append_right _ (List.mem_cons_of_mem _ hb)
    · rw [if_neg h] at ha
      rcases List.mem_append.1 (insert_fold_sub l' (acc ++ [x]) ha) with hb | hb
      · rcases List.mem_append.1 hb with hc | hc
        · exact List.mem_append_left _ hc
        · rw [List.mem_singleton] at hc
          exact List.mem_append_right _ (hc ▸ List.mem_cons_self _ _)
      · exact List.mem_append_right _ (List.mem_cons_of_mem _ hb)

theorem insert_fold_nodup {α : Type} [DecidableEq α] :
    ∀ (l acc : List α), acc.Nodup →
      (l.foldl (fun acc v => if v ∈ acc then acc else acc ++ [v]) acc).Nodup
  | [], _, h => h
  | x :: l', acc, h => by
    rw [List.foldl_cons]
    by_cases hx : x ∈ acc
    · rw [if_pos hx]; exact insert_fold_nodup l' acc h
    · rw [if_neg hx]
      refine insert_fold_nodup l' (acc ++ [x])
        (List.Nodup.append h (List.nodup_singleton x) ?_)
      intro a ha hb
      rw [List.mem_singleton] at hb
      subst hb
      exact hx ha

/-! ## Decimal printing round-trips with parsing; `mkVar` is injective on
underscore-free ids -/

theorem digitVal_char_ofNat : ∀ d : Fin 10, digitVal (Char.ofNat (48 + d)) = some d.val := by
  decide

theorem char_ofNat_ne_underscore : ∀ d : Fin 10, Char.ofNat (48 + d.val) ≠ '_' := by
  decide

theorem parseDigitsAux_append (xs ys : List Char) :
    ∀ acc, parseDigitsAux (xs ++ ys) acc =
      match parseDigitsAux xs acc with
      | some a => parseDigitsAux ys a
      | none => none := by
  induction xs with
  | nil => intro acc; rfl
  | cons c cs ih =>
    intro acc
    rw [List.cons_append]
    cases hd : digitVal c with
    | some d => simp only [parseDigitsAux, hd]; exact ih _
    | none => simp only [parseDigitsAux, hd]

theorem natDigitsAux_parse :
    ∀ (fuel n : Nat), n < fuel → ∀ acc,
      parseDigitsAux (natDigitsAux fuel n) acc =
        some (acc * 10 ^ (natDigitsAux fuel n).length + n)
  | 0, n, hf, _ => absurd hf (by omega)
  | fuel + 1, n, hf, acc => by
    rw [natDigitsAux]
    by_cases h : n < 10
    · rw [if_pos h]
      have hd := digitVal_char_ofNat ⟨n, h⟩
      simp only [parseDigitsAux, hd, List.length_singleton, pow_one]
    · rw [if_neg h]
      rw [parseDigitsAux_append]
      have hlt : n / 10 < fuel :=
        lt_of_lt_of_le (Nat.div_lt_self (by omega) (by norm_num)) (by omega)
      rw [natDigitsAux_parse fuel (n / 10) hlt acc]
      have hd := digitVal_char_ofNat ⟨n % 10, Nat.mod_lt n (by norm_num)⟩
      simp only [parseDigitsAux, hd, List.length_append, List.length_singleton,
        pow_succ, Option.some.injEq]
      have h2 : 10 * (n / 10) + n % 10 = n := Nat.div_add_mod n 10
      set L := (natDigitsAux fuel (n / 10)).length
      ring_nf
      omega

theorem natDigits_parse (n : Nat) :
    ∀ acc, parseDigitsAux (natDigits n) acc =
      some (acc * 10 ^ (natDigits n).length + n) :=
  natDigitsAux_parse (n + 1) n (by omega)

theorem natDigits_inj {a b : Nat} (h : natDigits a = natDigits b) : a = b := by
  have ha := natDigits_parse a 0
  have hb := natDigits_parse b 0
  rw [h] at ha
  rw [ha] at hb
  simpa using hb

theorem underscore_not_mem_natDigitsAux :
    ∀ (fuel n : Nat), '_' ∉ natDigitsAux fuel n
  | 0, n => by simp [natDigitsAux]
  | fuel + 1, n => by
    rw [natDigitsAux]
    by_cases h : n < 10
    · rw [if_pos h]
      simp only [List.mem_singleton]
      exact fun he => char_ofNat_ne_underscore ⟨n, h⟩ he.symm
    · rw [if_neg h]
      intro hmem
      rcases List.mem_append.1 hmem with hm | hm
      · exact underscore_not_mem_natDigitsAux fuel (n / 10) hm
      · rw [List.mem_singleton] at hm
        exact char_ofNat_ne_underscore ⟨n % 10, Nat.mod_lt n (by norm_num)⟩ hm.symm

theorem underscore_not_mem_natDigits (n : Nat) : '_' ∉ natDigits n :=
  underscore_not_mem_natDigitsAux (n + 1) n

theorem append_sep_inj :
    ∀ {a : List Char} {a' rest rest' : List Char}, '_' ∉ a → '_' ∉ a' →
      a ++ '_' :: rest = a' ++ '_' :: rest' → a = a' ∧ rest = rest' := by
  intro a
  induction a with
  | nil =>
    intro a' rest rest' _ ha' h
    cases a' with
    | nil => simpa using h
    | cons c cs =>
      rw [List.nil_append, List.cons_append] at h
      obtain ⟨h1, _⟩ := List.cons.inj h
      exact absurd (by rw [h1]; exact List.mem_cons_self c cs) ha'
  | cons c cs ih =>
    intro a' rest rest' ha ha' h
    cases a' with
    | nil =>
      rw [List.nil_append, List.cons_append] at h
      obtain ⟨h1, _⟩ := List.cons.inj h
      exact absurd (by rw [← h1]; exact List.mem_cons_self c cs) ha
    | cons c' cs' =>
      rw [List.cons_append, List.cons_append] at h
      obtain ⟨h1, h2⟩ := List.cons.inj h
      have ha2 : '_' ∉ cs := fun hm => ha (List.mem_cons_of_mem _ hm)
      have ha2' : '_' ∉ cs' := fun hm => ha' (List.mem_cons_of_mem _ hm)
      obtain ⟨e1, e2⟩ := ih ha2 ha2' h2
      exact ⟨by rw [h1, e1], e2⟩

theorem mkVar_data (r h : String) (s : Nat) :
    (mkVar r h s).data = r.data ++ '_' :: (h.data ++ '_' :: natDigits s) := by
  simp [mkVar, natStr, String.data_append]

theorem mkVar_inj {r h r' h' : String} {s s' : Nat}
    (hr : '_' ∉ r.data) (hh : '_' ∉ h.data)
    (hr' : '_' ∉ r'.data) (hh' : '_' ∉ h'.data)
    (he : mkVar r h s = mkVar r' h' s') : r = r' ∧ h = h' ∧ s = s' := by
  have hd : (mkVar r h s).data = (mkVar r' h' s').data := by rw [he]
  rw [mkVar_data, mkVar_data] at hd
  obtain ⟨h1, h2⟩ := append_sep_inj hr hr' hd
  obtain ⟨h3, h4⟩ := append_sep_inj hh hh' h2
  exact ⟨String.ext h1, String.ext h3, natDigits_inj h4⟩

/-! ## Characterization of the built linear terms -/

theorem mem_allTriples {requests : List Request} {hosts : List Host}
    {t : Request × Host × Nat} :
    t ∈ allTriples requests hosts ↔
      t.1 ∈ requests ∧ t.2.1 ∈ hosts ∧ t.2.2 < numSlots := by
  obtain ⟨r, h, s⟩ := t
  constructor
  · intro hmem
    rcases List.mem_flatMap.1 hmem with ⟨r', hr', hmem⟩
    rcases List.mem_flatMap.1 hmem with ⟨h', hh', hmem⟩
    rcases List.mem_map.1 hmem with ⟨s', hs', he⟩
    cases he
    exact ⟨hr', hh', List.mem_range.1 hs'⟩
  · rintro ⟨h1, h2, h3⟩
    exact List.mem_flatMap.2 ⟨r, h1, List.mem_flatMap.2 ⟨h, h2,
      List.mem_map.2 ⟨s, List.mem_range.2 h3, rfl⟩⟩⟩

theorem allTriples_eq_triplesN (requests : List Request) (hosts : List Host) :
    allTriples requests hosts = triplesN requests hosts numSlots := rfl

theorem triplesN_eq_product (requests : List Request) (hosts : List Host)
    (n : Nat) :
    triplesN requests hosts n = requests ×ˢ (hosts ×ˢ List.range n) := by
  rw [show requests ×ˢ (hosts ×ˢ List.range n) =
      requests.flatMap fun a =>
        ((hosts.flatMap fun b => (List.range n).map fun c => (b, c)).map
          fun p => (a, p)) from rfl]
  simp only [triplesN, List.map_flatMap, List.map_map]
  rfl

theorem mem_triplesN {requests : List Request} {hosts : List Host} {n : Nat}
    {t : Request × Host × Nat} :
    t ∈ triplesN requests hosts n ↔
      t.1 ∈ requests ∧ t.2.1 ∈ hosts ∧ t.2.2 < n := by
  obtain ⟨r, h, s⟩ := t
  constructor
  · intro hmem
    rcases List.mem_flatMap.1 hmem with ⟨r', hr', hmem⟩
    rcases List.mem_flatMap.1 hmem with ⟨h', hh', hmem⟩
    rcases List.mem_map.1 hmem with ⟨s', hs', he⟩
    cases he
    exact ⟨hr', hh', List.mem_range.1 hs'⟩
  · rintro ⟨h1, h2, h3⟩
    exact List.mem_flatMap.2 ⟨r, h1, List.mem_flatMap.2 ⟨h, h2,
      List.mem_map.2 ⟨s, List.mem_range.2 h3, rfl⟩⟩⟩

theorem triplesN_nodup {requests : List Request} {hosts : List Host}
    (n : Nat) (h1 : (requests.map Request.id).Nodup)
    (h2 : (hosts.map Host.id).Nodup) :
    (triplesN requests hosts n).Nodup := by
  rw [triplesN_eq_product]
  exact (h1.of_map _).product ((h2.of_map _).product (List.nodup_range n))

theorem flatKeys_eq_triplesN_map (requests : List Request) (hosts : List Host)
    (n : Nat) :
    (requests.flatMap fun r => hosts.flatMap fun h =>
        (List.range n).map fun s => mkVar r.id h.id s) =
      (triplesN requests hosts n).map linKey := by
  simp only [triplesN, List.map_flatMap, List.map_map]
  rfl

theorem triplesN_map_linKey_nodup {requests : List Request} {hosts : List Host}
    (n : Nat) (h1 : (requests.map Request.id).Nodup)
    (h2 : (hosts.map Host.id).Nodup)
    (h3 : ∀ r ∈ requests, '_' ∉ r.id.data)
    (h4 : ∀ h ∈ hosts, '_' ∉ h.id.data) :
    ((triplesN requests hosts n).map linKey).Nodup := by
  refine List.Nodup.map_on ?_ (triplesN_nodup n h1 h2)
  intro t ht t' ht' he
  obtain ⟨r, h, s⟩ := t
  obtain ⟨r', h', s'⟩ := t'
  obtain ⟨hr, hh, _⟩ := mem_triplesN.1 ht
  obtain ⟨hr', hh', _⟩ := mem_triplesN.1 ht'
  obtain ⟨e1, e2, e3⟩ :=
    mkVar_inj (h3 r hr) (h4 h hh) (h3 r' hr') (h4 h' hh') he
  have er : r = r' := List.inj_on_of_nodup_map h1 hr hr' e1
  have eh : h = h' := List.inj_on_of_nodup_map h2 hh hh' e2
  have es : s = s' := e3
  rw [er, eh, es]

theorem allKeys_eq_flat (requests : List Request) (hosts : List Host) :
    allKeys requests hosts =
      requests.flatMap fun r => hosts.flatMap fun h =>
        (List.range numSlots).map fun s => mkVar r.id h.id s :=
  (flatKeys_eq_triplesN_map requests hosts numSlots).symm

theorem allKeys_nodup {requests : List Request} {hosts : List Host}
    (hg : GoodIds requests hosts) : (allKeys requests hosts).Nodup :=
  triplesN_map_linKey_nodup numSlots hg.1 hg.2.1 hg.2.2.1 hg.2.2.2

theorem dKeys_map_pair {α : Type} (L : List α) (kf : α → String)
    (vf : α → Int) : dKeys (L.map fun t => (kf t, vf t)) = L.map kf := by
  simp [dKeys, List.map_map]

theorem dKeys_directLinear (requests : List Request) (hosts : List Host) :
    dKeys (directLinear requests hosts) = allKeys requests hosts := by
  simp [directLinear, allKeys, dKeys, List.map_map]

theorem phase1_eq_fold (requests : List Request) (hosts : List Host) :
    phase1 requests hosts =
      (allTriples requests hosts).foldl
        (fun acc t => dSet acc (linKey t) (rewardOf t)) [] := by
  simp only [phase1, allTriples, foldl_flatMap, List.foldl_map]
  rfl

theorem phase1_direct {requests : List Request} {hosts : List Host}
    (hg : GoodIds requests hosts) :
    phase1 requests hosts =
      (allTriples requests hosts).map fun t => (linKey t, rewardOf t) := by
  rw [phase1_eq_fold]
  have h := foldl_dSet_fresh (β := Int) linKey rewardOf
    (allTriples requests hosts) [] (allKeys_nodup hg)
    (by intro x _; simp [dKeys])
  simpa using h

theorem flatMap_reqVars (requests : List Request) (hosts : List Host) :
    (requests.flatMap fun r => reqVars r hosts) = allKeys requests hosts := by
  rw [allKeys_eq_flat]
  rfl

theorem phase2lin_direct {requests : List Request} {hosts : List Host}
    (hg : GoodIds requests hosts) :
    phase2lin requests hosts
        ((allTriples requests hosts).map fun t => (linKey t, rewardOf t)) =
      (allTriples requests hosts).map fun t =>
        (linKey t, rewardOf t - penaltyMultipleAssignments) := by
  have hbody : (fun (acc : List (String × Int)) v =>
      dSet acc v (dGet acc v 0 - penaltyMultipleAssignments)) =
      fun acc v => dSet acc v (dGet acc v 0 + (-penaltyMultipleAssignments)) := by
    funext acc v
    rw [sub_eq_add_neg]
  simp only [phase2lin]
  rw [hbody, ← foldl_flatMap (fun r => reqVars r hosts)
    (fun acc v => dSet acc v (dGet acc v 0 + (-penaltyMultipleAssignments)))
    requests, flatMap_reqVars]
  rw [foldl_dSet_get_add (-penaltyMultipleAssignments) (allKeys requests hosts) _
    (by rw [dKeys_map_pair]; exact allKeys_nodup hg) (allKeys_nodup hg)
    (by intro k hk; rw [dKeys_map_pair]; exact hk)]
  rw [List.map_map]
  refine List.map_congr_left fun t ht => ?_
  have hmem : linKey t ∈ allKeys requests hosts := List.mem_map.2 ⟨t, ht, rfl⟩
  simp [Function.comp, hmem, sub_eq_add_neg]

theorem flatMap_ite_filter {α β' : Type} (P : α → Prop) [DecidablePred P]
    (f : α → List β') (l : List α) :
    (l.flatMap fun x => if P x then f x else []) =
      (l.filter fun x => decide (P x)).flatMap f := by
  induction l with
  | nil => rfl
  | cons x xs ih => by_cases h : P x <;> simp [List.filter_cons, h, ih]

theorem phase4_direct {requests : List Request} {hosts : List Host}
    (hg : GoodIds requests hosts) :
    phase4 requests hosts
        ((allTriples requests hosts).map fun t =>
          (linKey t, rewardOf t - penaltyMultipleAssignments)) =
      directLinear requests hosts := by
  set m0 := (allTriples requests hosts).map fun t =>
    (linKey t, rewardOf t - penaltyMultipleAssignments) with hm0
  have hflat : phase4 requests hosts m0 =
      ((requests.filter fun r => decide (r.preferredDates ≠ [])).flatMap
          (prefKeys hosts)).foldl
        (fun acc v =>
          if v ∈ dKeys acc then dSet acc v (dGet acc v 0 + (-10)) else acc)
        m0 := by
    rw [← flatMap_ite_filter (fun r : Request => r.preferredDates ≠ [])
      (prefKeys hosts), foldl_flatMap]
    simp only [phase4]
    congr 1
    funext acc req
    by_cases hp : req.preferredDates ≠ []
    · rw [if_pos hp, if_pos hp]
      simp only [prefKeys, foldl_flatMap, List.foldl_map, sub_eq_add_neg]
    · rw [if_neg hp, if_neg hp]
      rfl
  rw [hflat]
  set reqsP := requests.filter fun r => decide (r.preferredDates ≠ []) with hreqsP
  have hsubP : ∀ r ∈ reqsP, r ∈ requests := fun r hr =>
    List.mem_of_mem_filter hr
  have hK4 : reqsP.flatMap (prefKeys hosts) =
      (triplesN reqsP hosts 24).map linKey := by
    rw [← flatKeys_eq_triplesN_map]
    rfl
  have hPnodup : (reqsP.map Request.id).Nodup :=
    ((List.filter_sublist requests).map Request.id).nodup hg.1
  have hK4nodup : (reqsP.flatMap (prefKeys hosts)).Nodup := by
    rw [hK4]
    exact triplesN_map_linKey_nodup 24 hPnodup hg.2.1
      (fun r hr => hg.2.2.1 r (hsubP r hr)) hg.2.2.2
  have hK4sub : ∀ k ∈ reqsP.flatMap (prefKeys hosts),
      k ∈ allKeys requests hosts := by
    intro k hk
    rcases List.mem_flatMap.1 hk with ⟨r, hr, hk⟩
    rcases List.mem_flatMap.1 hk with ⟨h, hh, hk⟩
    rcases List.mem_map.1 hk with ⟨s, hs, rfl⟩
    rw [allKeys_eq_flat]
    exact List.mem_flatMap.2 ⟨r, hsubP r hr, List.mem_flatMap.2 ⟨h, hh,
      List.mem_map.2 ⟨s, List.mem_range.2
        (lt_trans (List.mem_range.1 hs) (by decide)), rfl⟩⟩⟩
  rw [foldl_guard_dSet_get_add (-10) _ _
    (by rw [hm0, dKeys_map_pair]; exact allKeys_nodup hg) hK4nodup
    (by intro k hk; rw [hm0, dKeys_map_pair]; exact hK4sub k hk)]
  rw [hm0, directLinear, List.map_map]
  refine List.map_congr_left fun t ht => ?_
  have hiff : linKey t ∈ reqsP.flatMap (prefKeys hosts) ↔
      (t.1.preferredDates ≠ [] ∧ t.2.2 < 24) := by
    have htm := mem_allTriples.1 ht
    constructor
    · intro hk
      rcases List.mem_flatMap.1 hk with ⟨r, hr, hk⟩
      rcases List.mem_flatMap.1 hk with ⟨h, hh, hk⟩
      rcases List.mem_map.1 hk with ⟨s, hs, he⟩
      obtain ⟨e1, _, e3⟩ := mkVar_inj
        (hg.2.2.1 r (hsubP r hr)) (hg.2.2.2 h hh)
        (hg.2.2.1 t.1 htm.1) (hg.2.2.2 t.2.1 htm.2.1) he
      have her : r = t.1 :=
        List.inj_on_of_nodup_map hg.1 (hsubP r hr) htm.1 e1
      refine ⟨?_, ?_⟩
      · rw [← her]
        simpa using List.of_mem_filter hr
      · rw [← e3]
        exact List.mem_range.1 hs
    · rintro ⟨hp, hs24⟩
      refine List.mem_flatMap.2 ⟨t.1, ?_, List.mem_flatMap.2 ⟨t.2.1, htm.2.1,
        List.mem_map.2 ⟨t.2.2, List.mem_range.2 hs24, rfl⟩⟩⟩
      exact List.mem_filter.2 ⟨htm.1, by simpa using hp⟩
  by_cases hc : t.1.preferredDates ≠ [] ∧ t.2.2 < 24
  · have hk := hiff.2 hc
    simp only [Function.comp_apply]
    rw [if_pos hk]
    simp only [linCoeff]
    rw [if_pos hc]
    congr 1
  · have hk : linKey t ∉ reqsP.flatMap (prefKeys hosts) := fun hm =>
      hc (hiff.1 hm)
    simp only [Function.comp_apply]
    rw [if_neg hk]
    simp only [linCoeff]
    rw [if_neg hc]
    congr 1
    omega

theorem buildLinear_direct {requests : List Request} {hosts : List Host}
    (hg : GoodIds requests hosts) :
    buildLinear requests hosts = directLinear requests hosts := by
  rw [buildLinear, phase1_direct hg, phase2lin_direct hg, phase4_direct hg]

theorem buildLinear_lookup {requests : List Request} {hosts : List Host}
    (hg : GoodIds requests hosts) {r : Request} {h : Host} {s : Nat}
    (hr : r ∈ requests) (hh : h ∈ hosts) (hs : s < numSlots) :
    dGet (buildModel requests hosts).linear (mkVar r.id h.id s) 0 =
      linCoeff (r, h, s) := by
  show dGet (buildLinear requests hosts) (mkVar r.id h.id s) 0 = _
  rw [buildLinear_direct hg]
  refine dGet_of_mem_nodup ?_ ?_ 0
  · rw [dKeys_directLinear]
    exact allKeys_nodup hg
  · exact List.mem_map.2 ⟨(r, h, s), mem_allTriples.2 ⟨hr, hh, hs⟩, rfl⟩

/-! ## Characterization of the quadratic keys and the model variables -/

theorem foldl_guard_keys_sub {κ : Type} [DecidableEq κ]
    (val : List (κ × Int) → κ → Int) :
    ∀ (K : List κ) (m : List (κ × Int)),
      dKeys (K.foldl (fun acc k =>
        if k ∈ dKeys acc then dSet acc k (val acc k) else acc) m) ⊆
        dKeys m ++ K
  | [], m => by simp
  | k :: K', m => by
    rw [List.foldl_cons]
    intro a ha
    by_cases h : k ∈ dKeys m
    · rw [if_pos h] at ha
      rcases List.mem_append.1 (foldl_guard_keys_sub val K' _ ha) with hb | hb
      · rcases List.mem_append.1 (dKeys_dSet_sub m k (val m k) hb) with hc | hc
        · exact List.mem_append_left _ hc
        · rw [List.mem_singleton] at hc
          exact List.mem_append_right _ (hc ▸ List.mem_cons_self _ _)
      · exact List.mem_append_right _ (List.mem_cons_of_mem _ hb)
    · rw [if_neg h] at ha
      rcases List.mem_append.1 (foldl_guard_keys_sub val K' m ha) with hb | hb
      · exact List.mem_append_left _ hb
      · exact List.mem_append_right _ (List.mem_cons_of_mem _ hb)

theorem phase2quad_eq_fold (requests : List Request) (hosts : List Host)
    (quad : List ((String × String) × Int)) :
    phase2quad requests hosts quad =
      (requests.flatMap fun r => pyPairs (reqVars r hosts)).foldl
        (fun acc p => dSet acc (pairKey p.1 p.2)
          (dGet acc (pairKey p.1 p.2) 0 + 2 * penaltyMultipleAssignments))
        quad := by
  simp only [phase2quad, foldl_flatMap]

theorem phase3_eq_fold (requests : List Request) (hosts : List Host)
    (quad : List ((String × String) × Int)) :
    phase3 requests hosts quad =
      (hosts.flatMap fun h => (List.range numSlots).flatMap fun s =>
        pyPairs (hostSlotVars requests h s)).foldl
        (fun acc p => dSet acc (pairKey p.1 p.2)
          (dGet acc (pairKey p.1 p.2) 0 + penaltyHostConflict))
        quad := by
  simp only [phase3, foldl_flatMap]

theorem phase2quad_keys_sub (requests : List Request) (hosts : List Host)
    (quad : List ((String × String) × Int)) :
    dKeys (phase2quad requests hosts quad) ⊆
      dKeys quad ++ reqPairKeys requests hosts := by
  rw [phase2quad_eq_fold]
  have h := foldl_dSet_keys_sub (β := Int)
    (fun p : String × String => pairKey p.1 p.2)
    (fun acc p => dGet acc (pairKey p.1 p.2) 0 + 2 * penaltyMultipleAssignments)
    (requests.flatMap fun r => pyPairs (reqVars r hosts)) quad
  rw [List.map_flatMap] at h
  exact h

theorem phase3_keys_sub (requests : List Request) (hosts : List Host)
    (quad : List ((String × String) × Int)) :
    dKeys (phase3 requests hosts quad) ⊆
      dKeys quad ++ hostPairKeys requests hosts := by
  rw [phase3_eq_fold]
  have h := foldl_dSet_keys_sub (β := Int)
    (fun p : String × String => pairKey p.1 p.2)
    (fun acc p => dGet acc (pairKey p.1 p.2) 0 + penaltyHostConflict)
    (hosts.flatMap fun h => (List.range numSlots).flatMap fun s =>
      pyPairs (hostSlotVars requests h s)) quad
  simp only [List.map_flatMap] at h
  exact h

theorem buildQuadratic_keys_sub (requests : List Request) (hosts : List Host) :
    dKeys (buildQuadratic requests hosts) ⊆
      reqPairKeys requests hosts ++ hostPairKeys requests hosts := by
  intro k hk
  rcases List.mem_append.1
      (phase3_keys_sub requests hosts (phase2quad requests hosts []) hk)
    with hb | hb
  · rcases List.mem_append.1 (phase2quad_keys_sub requests hosts [] hb) with hc | hc
    · simp [dKeys] at hc
    · exact List.mem_append_left _ hc
  · exact List.mem_append_right _ hb

theorem mem_reqVars {r : Request} {hosts : List Host} {v : String} :
    v ∈ reqVars r hosts ↔
      ∃ h ∈ hosts, ∃ s, s < numSlots ∧ v = mkVar r.id h.id s := by
  constructor
  · intro hv
    rcases List.mem_flatMap.1 hv with ⟨h, hh, hv⟩
    rcases List.mem_map.1 hv with ⟨s, hs, rfl⟩
    exact ⟨h, hh, s, List.mem_range.1 hs, rfl⟩
  · rintro ⟨h, hh, s, hs, rfl⟩
    exact List.mem_flatMap.2 ⟨h, hh, List.mem_map.2 ⟨s, List.mem_range.2 hs, rfl⟩⟩

theorem mem_hostSlotVars {requests : List Request} {h : Host} {s : Nat}
    {v : String} :
    v ∈ hostSlotVars requests h s ↔ ∃ r ∈ requests, v = mkVar r.id h.id s := by
  constructor
  · intro hv
    rcases List.mem_map.1 hv with ⟨r, hr, rfl⟩
    exact ⟨r, hr, rfl⟩
  · rintro ⟨r, hr, rfl⟩
    exact List.mem_map.2 ⟨r, hr, rfl⟩

theorem mem_allKeys_of (requests : List Request) (hosts : List Host)
    {r : Request} {h : Host} {s : Nat} (hr : r ∈ requests) (hh : h ∈ hosts)
    (hs : s < numSlots) : mkVar r.id h.id s ∈ allKeys requests hosts := by
  rw [allKeys_eq_flat]
  exact List.mem_flatMap.2 ⟨r, hr, List.mem_flatMap.2 ⟨h, hh,
    List.mem_map.2 ⟨s, List.mem_range.2 hs, rfl⟩⟩⟩

theorem reqVars_nodup {requests : List Request} {hosts : List Host}
    (hg : GoodIds requests hosts) {r : Request} (hr : r ∈ requests) :
    (reqVars r hosts).Nodup := by
  have he : reqVars r hosts = (triplesN [r] hosts numSlots).map linKey := by
    rw [← flatKeys_eq_triplesN_map]
    simp [reqVars]
  rw [he]
  refine triplesN_map_linKey_nodup numSlots (by simp) hg.2.1 ?_ hg.2.2.2
  intro r' hr'
  rw [List.mem_singleton] at hr'
  rw [hr']
  exact hg.2.2.1 r hr

theorem hostSlotVars_nodup {requests : List Request} {hosts : List Host}
    (hg : GoodIds requests hosts) {h : Host} (hh : h ∈ hosts) (s : Nat) :
    (hostSlotVars requests h s).Nodup := by
  refine List.Nodup.map_on ?_ (hg.1.of_map _)
  intro x hx y hy he
  obtain ⟨e1, _, _⟩ := mkVar_inj (hg.2.2.1 x hx) (hg.2.2.2 h hh)
    (hg.2.2.1 y hy) (hg.2.2.2 h hh) he
  exact List.inj_on_of_nodup_map hg.1 hx hy e1

theorem pairKey_cases (u v : String) :
    pairKey u v = (u, v) ∨ pairKey u v = (v, u) := by
  unfold pairKey
  by_cases h : v < u
  · rw [if_pos h]
    exact Or.inr rfl
  · rw [if_neg h]
    exact Or.inl rfl

theorem quadKey_ok {requests : List Request} {hosts : List Host}
    (hg : GoodIds requests hosts) :
    ∀ k ∈ dKeys (buildQuadratic requests hosts),
      QuadKeyOK requests hosts k := by
  intro k hk
  rcases List.mem_append.1 (buildQuadratic_keys_sub requests hosts hk)
    with hk | hk
  · rcases List.mem_flatMap.1 hk with ⟨r, hr, hk⟩
    rcases List.mem_map.1 hk with ⟨p, hp, rfl⟩
    obtain ⟨h1, h2⟩ := pyPairs_mem hp
    have hne := pyPairs_ne (reqVars_nodup hg hr) hp
    rcases mem_reqVars.1 h1 with ⟨ha, hha, s1, hs1, he1⟩
    rcases mem_reqVars.1 h2 with ⟨hb, hhb, s2, hs2, he2⟩
    refine ⟨r.id, ha.id, s1, r.id, hb.id, s2,
      List.mem_map.2 ⟨r, hr, rfl⟩, List.mem_map.2 ⟨ha, hha, rfl⟩,
      List.mem_map.2 ⟨r, hr, rfl⟩, List.mem_map.2 ⟨hb, hhb, rfl⟩,
      hs1, hs2, by rw [← he1, ← he2], ?_, Or.inl rfl⟩
    rw [← he1, ← he2]
    exact hne
  · rcases List.mem_flatMap.1 hk with ⟨h, hh, hk⟩
    rcases List.mem_flatMap.1 hk with ⟨s, hs, hk⟩
    rcases List.mem_map.1 hk with ⟨p, hp, rfl⟩
    obtain ⟨h1, h2⟩ := pyPairs_mem hp
    have hne := pyPairs_ne (hostSlotVars_nodup hg hh s) hp
    rcases mem_hostSlotVars.1 h1 with ⟨ra, hra, he1⟩
    rcases mem_hostSlotVars.1 h2 with ⟨rb, hrb, he2⟩
    refine ⟨ra.id, h.id, s, rb.id, h.id, s,
      List.mem_map.2 ⟨ra, hra, rfl⟩, List.mem_map.2 ⟨h, hh, rfl⟩,
      List.mem_map.2 ⟨rb, hrb, rfl⟩, List.mem_map.2 ⟨h, hh, rfl⟩,
      List.mem_range.1 hs, List.mem_range.1 hs,
      by rw [← he1, ← he2], ?_, Or.inr ⟨rfl, rfl⟩⟩
    rw [← he1, ← he2]
    exact hne

/-- Every endpoint of every quadratic key is one of the model variables
(no collision-freedom needed). -/
theorem quad_endpoints_sub (requests : List Request) (hosts : List Host) :
    ∀ k ∈ dKeys (buildQuadratic requests hosts),
      k.1 ∈ allKeys requests hosts ∧ k.2 ∈ allKeys requests hosts := by
  intro k hk
  rcases List.mem_append.1 (buildQuadratic_keys_sub requests hosts hk)
    with hk | hk
  · rcases List.mem_flatMap.1 hk with ⟨r, hr, hk⟩
    rcases List.mem_map.1 hk with ⟨p, hp, rfl⟩
    obtain ⟨h1, h2⟩ := pyPairs_mem hp
    rcases mem_reqVars.1 h1 with ⟨ha, hha, s1, hs1, he1⟩
    rcases mem_reqVars.1 h2 with ⟨hb, hhb, s2, hs2, he2⟩
    have m1 : p.1 ∈ allKeys requests hosts := by
      rw [he1]; exact mem_allKeys_of requests hosts hr hha hs1
    have m2 : p.2 ∈ allKeys requests hosts := by
      rw [he2]; exact mem_allKeys_of requests hosts hr hhb hs2
    rcases pairKey_cases p.1 p.2 with hc | hc <;> rw [hc] <;> exact ⟨by assumption, by assumption⟩
  · rcases List.mem_flatMap.1 hk with ⟨h, hh, hk⟩
    rcases List.mem_flatMap.1 hk with ⟨s, hs, hk⟩
    rcases List.mem_map.1 hk with ⟨p, hp, rfl⟩
    obtain ⟨h1, h2⟩ := pyPairs_mem hp
    rcases mem_hostSlotVars.1 h1 with ⟨ra, hra, he1⟩
    rcases mem_hostSlotVars.1 h2 with ⟨rb, hrb, he2⟩
    have m1 : p.1 ∈ allKeys requests hosts := by
      rw [he1]; exact mem_allKeys_of requests hosts hra hh (List.mem_range.1 hs)
    have m2 : p.2 ∈ allKeys requests hosts := by
      rw [he2]; exact mem_allKeys_of requests hosts hrb hh (List.mem_range.1 hs)
    rcases pairKey_cases p.1 p.2 with hc | hc <;> rw [hc] <;> exact ⟨by assumption, by assumption⟩

/-! ## `bqmVariables` of the built model -/

theorem bqmVariables_nodup (m : BQM) : (bqmVariables m).Nodup :=
  insert_fold_nodup _ [] List.nodup_nil

theorem bqmVariables_sub (m : BQM) :
    bqmVariables m ⊆
      dKeys m.linear ++ m.quadratic.flatMap fun p => [p.1.1, p.1.2] := by
  have h := insert_fold_sub
    (dKeys m.linear ++ m.quadratic.flatMap fun p => [p.1.1, p.1.2]) []
  simpa [bqmVariables] using h

theorem phase1_keys_sub (requests : List Request) (hosts : List Host) :
    dKeys (phase1 requests hosts) ⊆ allKeys requests hosts := by
  intro k hk
  rw [phase1_eq_fold] at hk
  rcases List.mem_append.1 (foldl_dSet_keys_sub (β := Int) linKey
    (fun _ t => rewardOf t) (allTriples requests hosts) [] hk) with hc | hc
  · simp [dKeys] at hc
  · exact hc

theorem phase2lin_keys_sub (requests : List Request) (hosts : List Host)
    (m : List (String × Int)) :
    dKeys (phase2lin requests hosts m) ⊆ dKeys m ++ allKeys requests hosts := by
  intro k hk
  simp only [phase2lin] at hk
  rw [← foldl_flatMap (fun r => reqVars r hosts) _ requests,
    flatMap_reqVars] at hk
  rcases List.mem_append.1 (foldl_dSet_keys_sub (β := Int) (fun v : String => v)
    (fun acc v => dGet acc v 0 - penaltyMultipleAssignments)
    (allKeys requests hosts) m hk) with hc | hc
  · exact List.mem_append_left _ hc
  · exact List.mem_append_right _ (by simpa using hc)

/-- The phase-4 loop, flattened over the preferred requests' key list
(no collision-freedom needed). -/
theorem phase4_eq_fold (requests : List Request) (hosts : List Host)
    (m : List (String × Int)) :
    phase4 requests hosts m =
      ((requests.filter fun r => decide (r.preferredDates ≠ [])).flatMap
          (prefKeys hosts)).foldl
        (fun acc v =>
          if v ∈ dKeys acc then dSet acc v (dGet acc v 0 + (-10)) else acc)
        m := by
  rw [← flatMap_ite_filter (fun r : Request => r.preferredDates ≠ [])
    (prefKeys hosts), foldl_flatMap]
  simp only [phase4]
  congr 1
  funext acc req
  by_cases hp : req.preferredDates ≠ []
  · rw [if_pos hp, if_pos hp]
    simp only [prefKeys, foldl_flatMap, List.foldl_map, sub_eq_add_neg]
  · rw [if_neg hp, if_neg hp]
    rfl

theorem prefKeys_flat_sub (requests : List Request) (hosts : List Host) :
    ∀ k ∈ (requests.filter fun r => decide (r.preferredDates ≠ [])).flatMap
      (prefKeys hosts), k ∈ allKeys requests hosts := by
  intro k hk
  rcases List.mem_flatMap.1 hk with ⟨r, hr, hk⟩
  rcases List.mem_flatMap.1 hk with ⟨h, hh, hk⟩
  rcases List.mem_map.1 hk with ⟨s, hs, rfl⟩
  exact mem_allKeys_of requests hosts (List.mem_of_mem_filter hr) hh
    (lt_trans (List.mem_range.1 hs) (by decide))

theorem buildLinear_keys_sub (requests : List Request) (hosts : List Host) :
    dKeys (buildLinear requests hosts) ⊆ allKeys requests hosts := by
  intro k hk
  rw [buildLinear, phase4_eq_fold] at hk
  rcases List.mem_append.1 (foldl_guard_keys_sub
    (fun acc v => dGet acc v 0 + (-10)) _ _ hk) with hc | hc
  · rcases List.mem_append.1
        (phase2lin_keys_sub requests hosts (phase1 requests hosts) hc)
      with hd | hd
    · exact phase1_keys_sub requests hosts hd
    · exact hd
  · exact prefKeys_flat_sub requests hosts k hc

/-- All model variables are among the `n*m*56` canonical keys
(no collision-freedom needed). -/
theorem bqmVariables_sub_allKeys (requests : List Request) (hosts : List Host) :
    bqmVariables (buildModel requests hosts) ⊆ allKeys requests hosts := by
  intro v hv
  rcases List.mem_append.1 (bqmVariables_sub (buildModel requests hosts) hv)
    with hb | hb
  · exact buildLinear_keys_sub requests hosts hb
  · rcases List.mem_flatMap.1 hb with ⟨p, hp, hv2⟩
    have hk : p.1 ∈ dKeys (buildQuadratic requests hosts) :=
      List.mem_map.2 ⟨p, hp, rfl⟩
    obtain ⟨m1, m2⟩ := quad_endpoints_sub requests hosts p.1 hk
    rcases List.mem_cons.1 hv2 with hv2 | hv2
    · rw [hv2]
      exact m1
    · rw [List.mem_singleton] at hv2
      rw [hv2]
      exact m2

/-- With collision-free ids the variables are exactly the canonical keys. -/
theorem bqmVariables_eq {requests : List Request} {hosts : List Host}
    (hg : GoodIds requests hosts) :
    bqmVariables (buildModel requests hosts) = allKeys requests hosts := by
  have hlin : dKeys (buildModel requests hosts).linear = allKeys requests hosts := by
    show dKeys (buildLinear requests hosts) = _
    rw [buildLinear_direct hg, dKeys_directLinear]
  show ((dKeys (buildModel requests hosts).linear ++
    (buildModel requests hosts).quadratic.flatMap fun p => [p.1.1, p.1.2]).foldl
      (fun acc v => if v ∈ acc then acc else acc ++ [v]) []) = _
  rw [List.foldl_append]
  rw [insert_fold_of_fresh _ [] (by intro v _ hv; simp at hv)
    (hlin ▸ allKeys_nodup hg)]
  rw [List.nil_append, hlin]
  refine insert_fold_of_mem _ _ ?_
  intro v hv
  rcases List.mem_flatMap.1 hv with ⟨p, hp, hv2⟩
  have hk : p.1 ∈ dKeys (buildQuadratic requests hosts) :=
    List.mem_map.2 ⟨p, hp, rfl⟩
  obtain ⟨m1, m2⟩ := quad_endpoints_sub requests hosts p.1 hk
  rcases List.mem_cons.1 hv2 with hv2 | hv2
  · rw [hv2]
    exact m1
  · rw [List.mem_singleton] at hv2
    rw [hv2]
    exact m2

theorem allKeys_length (requests : List Request) (hosts : List Host) :
    (allKeys requests hosts).length =
      requests.length * hosts.length * numSlots := by
  rw [allKeys, List.length_map, allTriples_eq_triplesN, triplesN_eq_product,
    List.length_product, List.length_product, List.length_range, mul_assoc]

theorem bqmVariables_length {requests : List Request} {hosts : List Host}
    (hg : GoodIds requests hosts) :
    (bqmVariables (buildModel requests hosts)).length =
      requests.length * hosts.length * numSlots := by
  rw [bqmVariables_eq hg, allKeys_length]

theorem bqmVariables_length_le (requests : List Request) (hosts : List Host) :
    (bqmVariables (buildModel requests hosts)).length ≤
      (allKeys requests hosts).toFinset.card := by
  have hnd := bqmVariables_nodup (buildModel requests hosts)
  have hsub := bqmVariables_sub_allKeys requests hosts
  rw [← List.toFinset_card_of_nodup hnd]
  exact Finset.card_le_card fun x hx =>
    List.mem_toFinset.2 (hsub (List.mem_toFinset.1 hx))

/-! ## Decoder specification helpers -/

/-! ## Decoder lemmas -/

theorem le_foldr_max (l : List Int) : ∀ x ∈ l, x ≤ l.foldr max 0 := by
  induction l with
  | nil => intro x hx; simp at hx
  | cons y ys ih =>
    intro x hx
    rcases List.mem_cons.1 hx with hx | hx
    · rw [hx, List.foldr_cons]
      exact le_max_left _ _
    · exact le_trans (ih x hx) (le_max_right _ _)

theorem lastAssoc_id {α : Type} (idf : α → String) :
    ∀ (l : List α) (i : String) (x : α),
      lastAssoc (l.map fun r => (idf r, r)) i = some x → idf x = i := by
  intro l
  induction l with
  | nil => intro i x h; simp [lastAssoc] at h
  | cons r rest ih =>
    intro i x h
    rw [List.map_cons, lastAssoc] at h
    cases hrec : lastAssoc (rest.map fun r => (idf r, r)) i with
    | some w =>
      rw [hrec] at h
      cases h
      exact ih i x hrec
    | none =>
      rw [hrec] at h
      by_cases he : idf r = i
      · rw [if_pos he] at h
        cases h
        exact he
      · rw [if_neg he] at h
        cases h

theorem lastAssoc_isSome_of_mem {α : Type} (idf : α → String) :
    ∀ (l : List α) (x : α), x ∈ l →
      (lastAssoc (l.map fun r => (idf r, r)) (idf x)).isSome := by
  intro l
  induction l with
  | nil => intro x hx; simp at hx
  | cons r rest ih =>
    intro x hx
    rw [List.map_cons, lastAssoc]
    cases hrec : lastAssoc (rest.map fun r => (idf r, r)) (idf x) with
    | some w => simp
    | none =>
      rcases List.mem_cons.1 hx with hx | hx
      · rw [hx]
        simp
      · have := ih x hx
        rw [hrec] at this
        simp at this

theorem reqLookup_isSome {requests : List Request} {i : String}
    (h : i ∈ requests.map Request.id) : (reqLookup requests i).isSome := by
  rcases List.mem_map.1 h with ⟨r, hr, rfl⟩
  exact lastAssoc_isSome_of_mem Request.id requests r hr

theorem hostLookup_isSome {hosts : List Host} {i : String}
    (h : i ∈ hosts.map Host.id) : (hostLookup hosts i).isSome := by
  rcases List.mem_map.1 h with ⟨hRec, hh, rfl⟩
  exact lastAssoc_isSome_of_mem Host.id hosts hRec hh

theorem parseVar_inv {k : String} {t : String × String × Int}
    (h : parseVar k = some t) :
    3 ≤ (splitChars '_' k.data).length ∧
    pyInt ((splitChars '_' k.data).getD 2 []) = some t.2.2 ∧
    t.1 = ⟨(splitChars '_' k.data).getD 0 []⟩ ∧
    t.2.1 = ⟨(splitChars '_' k.data).getD 1 []⟩ := by
  unfold parseVar at h
  by_cases hl : 3 ≤ (splitChars '_' k.data).length
  · rw [if_pos hl] at h
    cases hp : pyInt ((splitChars '_' k.data).getD 2 []) with
    | none => rw [hp] at h; cases h
    | some z =>
      rw [hp] at h
      rw [Option.map_some'] at h
      cases h
      exact ⟨hl, by simpa using hp, rfl, rfl⟩
  · rw [if_neg hl] at h
    cases h

theorem slotDate_fin_ok : ∀ d : Fin 7, (slotDateStr (d : Nat)).isSome := by
  decide

theorem slotDate_ok (s : Int) (h1 : 0 ≤ s) (h2 : s < 56) :
    (slotDateStr (s.fdiv 8)).isSome := by
  have hn : s = ((s.toNat : Nat) : Int) := (Int.toNat_of_nonneg h1).symm
  have hlt : s.toNat / 8 < 7 := by omega
  have hd : s.fdiv 8 = ((s.toNat / 8 : Nat) : Int) := by
    rw [Int.fdiv_eq_ediv _ (by norm_num)]
    omega
  rw [hd]
  exact slotDate_fin_ok ⟨s.toNat / 8, hlt⟩

theorem timeSlot_lt (s : Int) : (s.emod 8).toNat < timeMapping.length := by
  have h1 : 0 ≤ s.emod 8 := Int.emod_nonneg s (by norm_num)
  have h2 : s.emod 8 < 8 := Int.emod_lt_of_pos s (by norm_num)
  have : timeMapping.length = 8 := by decide
  omega

/-- The Decoder processes exactly the entries with value 1 and at least 3
name components; all other entries are skipped with no observable effect
(in particular there is no diagnostics counter to increment). -/
theorem decodeItems_filter (reqMap : String → Option Request)
    (hostMap : String → Option Host) :
    ∀ sol : List (String × Rat),
      decodeItems reqMap hostMap sol =
        decodeItems reqMap hostMap (sol.filter fun e =>
          decide (e.2 = 1 ∧ 3 ≤ (splitChars '_' e.1.data).length))
  | [] => rfl
  | (k, v) :: rest => by
    by_cases hv : v = 1
    · by_cases hp : 3 ≤ (splitChars '_' k.data).length
      · rw [List.filter_cons, if_pos (by simp [hv, hp])]
        simp only [decodeItems, if_pos hv, if_pos hp]
        rw [decodeItems_filter reqMap hostMap rest]
      · rw [List.filter_cons, if_neg (by simp [hv, hp])]
        simp only [decodeItems, if_pos hv, if_neg hp]
        exact decodeItems_filter reqMap hostMap rest
    · rw [List.filter_cons, if_neg (by simp [hv])]
      simp only [decodeItems, if_neg hv]
      exact decodeItems_filter reqMap hostMap rest

theorem decodeItems_wf (reqMap : String → Option Request)
    (hostMap : String → Option Host) :
    ∀ (sol : List (String × Rat)) (L : List (String × String × Int)),
      (activeKeys sol).map parseVar = L.map some →
      (∀ t ∈ L, (reqMap t.1).isSome) →
      (∀ t ∈ L, (hostMap t.2.1).isSome) →
      (∀ t ∈ L, 0 ≤ t.2.2 ∧ t.2.2 < 56) →
      decodeItems reqMap hostMap sol = .ok (L.map (meetingAt reqMap hostMap))
  | [], L, hparse, _, _, _ => by
    have : L = [] := by
      cases L with
      | nil => rfl
      | cons t L' => simp [activeKeys] at hparse
    rw [this]
    rfl
  | (k, v) :: rest, L, hparse, hreq, hhost, hslot => by
    by_cases hv : v = 1
    · have hak : activeKeys ((k, v) :: rest) = k :: activeKeys rest := by
        simp [activeKeys, List.filterMap_cons, hv]
      rw [hak] at hparse
      cases L with
      | nil => simp at hparse
      | cons t L' =>
        rw [List.map_cons, List.map_cons] at hparse
        obtain ⟨hkt, hrest⟩ := List.cons.inj hparse
        obtain ⟨hlen, hpy, ht1, ht2⟩ := parseVar_inv hkt
        obtain ⟨req, hreqEq⟩ :=
          Option.isSome_iff_exists.1 (hreq t (List.mem_cons_self t L'))
        obtain ⟨host, hhostEq⟩ :=
          Option.isSome_iff_exists.1 (hhost t (List.mem_cons_self t L'))
        obtain ⟨hs0, hs56⟩ := hslot t (List.mem_cons_self t L')
        obtain ⟨dstr, hdstr⟩ :=
          Option.isSome_iff_exists.1 (slotDate_ok t.2.2 hs0 hs56)
        have hlook1 : reqMap ⟨(splitChars '_' k.data).getD 0 []⟩ = some req := by
          rw [← ht1]
          exact hreqEq
        have hlook2 : hostMap ⟨(splitChars '_' k.data).getD 1 []⟩ = some host := by
          rw [← ht2]
          exact hhostEq
        have hrec := decodeItems_wf reqMap hostMap rest L' hrest
          (fun x hx => hreq x (List.mem_cons_of_mem t hx))
          (fun x hx => hhost x (List.mem_cons_of_mem t hx))
          (fun x hx => hslot x (List.mem_cons_of_mem t hx))
        simp only [decodeItems, if_pos hv, if_pos hlen, hpy, hlook1, hlook2,
          hdstr, if_pos (timeSlot_lt t.2.2), hrec]
        simp only [List.map_cons, Except.map]
        have hm : meetingAt reqMap hostMap t = meetingOf req host t.2.2 := by
          unfold meetingAt
          rw [hreqEq, hhostEq]
        rw [hm]
    · have hak : activeKeys ((k, v) :: rest) = activeKeys rest := by
        simp [activeKeys, List.filterMap_cons, hv]
      rw [hak] at hparse
      simp only [decodeItems, if_neg hv]
      exact decodeItems_wf reqMap hostMap rest L hparse hreq hhost hslot

/-- An active, well-shaped entry with an integer third component whose
requestId or hostId lookup fails is skipped silently: decoding continues
with the remaining entries unchanged (the `continue` at line 230). -/
theorem decodeItems_skip_lookup (reqMap : String → Option Request)
    (hostMap : String → Option Host) (k : String)
    (rest : List (String × Rat)) (slot : Int)
    (hlen : 3 ≤ (splitChars '_' k.data).length)
    (hpy : pyInt ((splitChars '_' k.data).getD 2 []) = some slot)
    (hfail : reqMap ⟨(splitChars '_' k.data).getD 0 []⟩ = none ∨
      hostMap ⟨(splitChars '_' k.data).getD 1 []⟩ = none) :
    decodeItems reqMap hostMap ((k, 1) :: rest) =
      decodeItems reqMap hostMap rest := by
  rcases hfail with hf | hf
  · simp only [decodeItems, if_pos rfl, if_pos hlen, hpy, hf]
    simp
  · cases hr : reqMap ⟨(splitChars '_' k.data).getD 0 []⟩ with
    | none =>
      simp only [decodeItems, if_pos rfl, if_pos hlen, hpy, hr]
      simp
    | some req =>
      simp only [decodeItems, if_pos rfl, if_pos hlen, hpy, hr, hf]
      simp

/-! ## Greedy fallback lemmas -/

theorem fbInner_none_of_ge (si : Nat) (asg : List Nat) (h : ¬ si < 56) :
    ∀ hosts : List Host, fbInner si asg hosts = none
  | [] => rfl
  | host :: rest => by
    rw [fbInner, if_neg h]
    exact fbInner_none_of_ge si asg h rest

theorem fbInner_none_of_mem (si : Nat) (asg : List Nat) (h : si ∈ asg) :
    ∀ hosts : List Host, fbInner si asg hosts = none
  | [] => rfl
  | host :: rest => by
    rw [fbInner]
    by_cases h56 : si < 56
    · rw [if_pos h56, if_neg (by simpa using h)]
      exact fbInner_none_of_mem si asg h rest
    · rw [if_neg h56]
      exact fbInner_none_of_mem si asg h rest

theorem fbInner_some {si : Nat} {asg : List Nat} {hosts : List Host}
    {hs : String × Nat} (h : fbInner si asg hosts = some hs) :
    ∃ h0 rest, hosts = h0 :: rest ∧ hs = (h0.id, si) ∧ si < 56 := by
  cases hosts with
  | nil => cases h
  | cons h0 rest =>
    rw [fbInner] at h
    by_cases h56 : si < 56
    · rw [if_pos h56] at h
      by_cases hnm : si ∉ asg
      · rw [if_pos hnm] at h
        cases h
        exact ⟨h0, rest, rfl, rfl, h56⟩
      · rw [if_neg hnm] at h
        rw [fbInner_none_of_mem si asg (not_not.1 hnm) rest] at h
        cases h
    · rw [if_neg h56] at h
      rw [fbInner_none_of_ge si asg h56 rest] at h
      cases h

theorem fbLoop_slot_ge (hosts : List Host) :
    ∀ (reqs : List Request) (si : Nat) (asg : List Nat)
      (t : String × String × Nat), t ∈ fbLoop hosts reqs si asg → si ≤ t.2.2
  | [], _, _, t, h => by simp [fbLoop] at h
  | req :: rest, si, asg, t, h => by
    rw [fbLoop] at h
    cases hi : fbInner si asg hosts with
    | some hs =>
      rw [hi] at h
      obtain ⟨h0, r0, _, hseq, _⟩ := fbInner_some hi
      rcases List.mem_cons.1 h with h | h
      · rw [h, hseq]
      · have := fbLoop_slot_ge hosts rest (hs.2 + 1) (asg ++ [hs.2]) t h
        have h2 : hs.2 = si := by rw [hseq]
        omega
    | none =>
      rw [hi] at h
      exact fbLoop_slot_ge hosts rest si asg t h

theorem fbLoop_pairwise (hosts : List Host) :
    ∀ (reqs : List Request) (si : Nat) (asg : List Nat),
      (fbLoop hosts reqs si asg).Pairwise fun a b => a.2.2 < b.2.2
  | [], _, _ => by simp [fbLoop]
  | req :: rest, si, asg => by
    rw [fbLoop]
    cases hi : fbInner si asg hosts with
    | some hs =>
      obtain ⟨h0, r0, _, hseq, _⟩ := fbInner_some hi
      refine List.Pairwise.cons ?_ (fbLoop_pairwise hosts rest (hs.2 + 1) (asg ++ [hs.2]))
      intro t ht
      have := fbLoop_slot_ge hosts rest (hs.2 + 1) (asg ++ [hs.2]) t ht
      show hs.2 < t.2.2
      omega
    | none => exact fbLoop_pairwise hosts rest si asg

theorem fbLoop_length (hosts : List Host) :
    ∀ (reqs : List Request) (si : Nat) (asg : List Nat),
      (fbLoop hosts reqs si asg).length ≤ 56 - si
  | [], si, _ => by simp [fbLoop]
  | req :: rest, si, asg => by
    rw [fbLoop]
    cases hi : fbInner si asg hosts with
    | some hs =>
      obtain ⟨h0, r0, _, hseq, h56⟩ := fbInner_some hi
      have := fbLoop_length hosts rest (hs.2 + 1) (asg ++ [hs.2])
      have h2 : hs.2 = si := by rw [hseq]
      simp only [List.length_cons]
      omega
    | none => exact fbLoop_length hosts rest si asg

theorem fbLoop_first_host (hosts : List Host) :
    ∀ (reqs : List Request) (si : Nat) (asg : List Nat)
      (t : String × String × Nat), t ∈ fbLoop hosts reqs si asg →
      ∃ h0 rest, hosts = h0 :: rest ∧ t.2.1 = h0.id
  | [], _, _, t, h => by simp [fbLoop] at h
  | req :: rest, si, asg, t, h => by
    rw [fbLoop] at h
    cases hi : fbInner si asg hosts with
    | some hs =>
      rw [hi] at h
      obtain ⟨h0, r0, he, hseq, _⟩ := fbInner_some hi
      rcases List.mem_cons.1 h with h | h
      · refine ⟨h0, r0, he, ?_⟩
        rw [h, hseq]
      · exact fbLoop_first_host hosts rest (hs.2 + 1) (asg ++ [hs.2]) t h
    | none =>
      rw [hi] at h
      exact fbLoop_first_host hosts rest si asg t h

/-! ## Hybrid-backend fallback lemmas -/

theorem dKeys_sub_dSet {κ : Type} [DecidableEq κ] {β : Type} :
    ∀ (m : List (κ × β)) (k : κ) (v : β), dKeys m ⊆ dKeys (dSet m k v)
  | [], _, _ => by intro a ha; simp [dKeys] at ha
  | (k0, v0) :: rest, k, v => by
    rw [dSet]
    by_cases h : k0 = k
    · rw [if_pos h, dKeys_cons, dKeys_cons, h]
      exact fun a ha => ha
    · rw [if_neg h, dKeys_cons, dKeys_cons]
      intro a ha
      rcases List.mem_cons.1 ha with ha | ha
      · exact List.mem_cons.2 (Or.inl ha)
      · exact List.mem_cons.2 (Or.inr (dKeys_sub_dSet rest k v ha))

theorem mem_dKeys_dSet_self {κ : Type} [DecidableEq κ] {β : Type} :
    ∀ (m : List (κ × β)) (k : κ) (v : β), k ∈ dKeys (dSet m k v)
  | [], k, v => by simp [dSet, dKeys]
  | (k0, v0) :: rest, k, v => by
    rw [dSet]
    by_cases h : k0 = k
    · rw [if_pos h, dKeys_cons]
      exact List.mem_cons_self _ _
    · rw [if_neg h, dKeys_cons]
      exact List.mem_cons.2 (Or.inr (mem_dKeys_dSet_self rest k v))

theorem hybFold_inv (req : Request)
    (usage : List ((String × Nat) × String)) :
    ∀ (l : List (String × Nat)) (st : Rat × Option (String × Nat)),
      (∀ p, st.2 = some p → p ∉ usage.map Prod.fst) →
      ∀ hs, ((l.foldl (fun st hs' =>
          if hs' ∈ usage.map Prod.fst then st
          else
            let score : Rat := ((req.importanceScore.getD 50 : Nat) : Rat) +
              ((56 : Rat) - (hs'.2 : Nat)) * (1 / 10)
            if st.1 < score then (score, some hs') else st) st).2 = some hs) →
        hs ∉ usage.map Prod.fst
  | [], st, hinv, hs, h => hinv hs h
  | x :: l', st, hinv, hs, h => by
    rw [List.foldl_cons] at h
    by_cases hx : x ∈ usage.map Prod.fst
    · rw [if_pos hx] at h
      exact hybFold_inv req usage l' st hinv hs h
    · rw [if_neg hx] at h
      by_cases hb : st.1 < ((req.importanceScore.getD 50 : Nat) : Rat) +
          ((56 : Rat) - (x.2 : Nat)) * (1 / 10)
      · rw [if_pos hb] at h
        refine hybFold_inv req usage l' _ ?_ hs h
        intro p hp
        rw [Option.some.injEq] at hp
        rw [← hp]
        exact hx
      · rw [if_neg hb] at h
        exact hybFold_inv req usage l' st hinv hs h

theorem hybInner_fresh {req : Request} {hosts : List Host}
    {usage : List ((String × Nat) × String)} {hs : String × Nat}
    (h : hybInner req hosts usage = some hs) : hs ∉ usage.map Prod.fst := by
  unfold hybInner at h
  exact hybFold_inv req usage _ _ (by intro p hp; simp at hp) hs h

theorem hybLoop_not_used (hosts : List Host) :
    ∀ (reqs : List Request) (usage : List ((String × Nat) × String))
      (t : String × String × Nat), t ∈ hybLoop hosts reqs usage →
      (t.2.1, t.2.2) ∉ usage.map Prod.fst
  | [], _, t, h => by simp [hybLoop] at h
  | req :: rest, usage, t, h => by
    rw [hybLoop] at h
    cases hi : hybInner req hosts usage with
    | some hs =>
      rw [hi] at h
      rcases List.mem_cons.1 h with h | h
      · rw [h]
        exact hybInner_fresh hi
      · have := hybLoop_not_used hosts rest (dSet usage hs req.id) t h
        intro hmem
        exact this (dKeys_sub_dSet usage hs req.id hmem)
    | none =>
      rw [hi] at h
      exact hybLoop_not_used hosts rest usage t h

theorem hybLoop_pairwise (hosts : List Host) :
    ∀ (reqs : List Request) (usage : List ((String × Nat) × String)),
      (hybLoop hosts reqs usage).Pairwise
        fun a b => ¬(a.2.1 = b.2.1 ∧ a.2.2 = b.2.2)
  | [], _ => by simp [hybLoop]
  | req :: rest, usage => by
    rw [hybLoop]
    cases hi : hybInner req hosts usage with
    | some hs =>
      refine List.Pairwise.cons ?_ (hybLoop_pairwise hosts rest (dSet usage hs req.id))
      intro t ht hshare
      have hnu := hybLoop_not_used hosts rest (dSet usage hs req.id) t ht
      have hself : hs ∈ dKeys (dSet usage hs req.id) :=
        mem_dKeys_dSet_self usage hs req.id
      have : (t.2.1, t.2.2) = hs := by
        obtain ⟨e1, e2⟩ := hshare
        rw [← e1, ← e2]
      rw [this] at hnu
      exact hnu hself
    | none => exact hybLoop_pairwise hosts rest usage

/-! ## Bounds on the linear coefficients -/

theorem checkExpertiseMatch_ge (req : Request) (host : Host) :
    -1 ≤ checkExpertiseMatch req host := by
  simp only [checkExpertiseMatch]
  split_ifs <;> norm_num

theorem importanceOf_nonneg (req : Request) : 0 ≤ importanceOf req :=
  Int.natCast_nonneg _

theorem linCoeff_le (t : Request × Host × Nat) : linCoeff t ≤ -480 := by
  have h1 := importanceOf_nonneg t.1
  have h2 := checkExpertiseMatch_ge t.1 t.2.1
  unfold linCoeff rewardOf penaltyMultipleAssignments
  split_ifs <;> omega

theorem mem_dSet {κ : Type} [DecidableEq κ] {β : Type} :
    ∀ (m : List (κ × β)) (k : κ) (v : β) (p : κ × β),
      p ∈ dSet m k v → p = (k, v) ∨ p ∈ m
  | [], k, v, p, hp => by
    rw [dSet] at hp
    exact Or.inl (List.mem_singleton.1 hp)
  | (k0, v0) :: rest, k, v, p, hp => by
    rw [dSet] at hp
    by_cases h : k0 = k
    · rw [if_pos h] at hp
      rcases List.mem_cons.1 hp with hp | hp
      · exact Or.inl hp
      · exact Or.inr (List.mem_cons_of_mem _ hp)
    · rw [if_neg h] at hp
      rcases List.mem_cons.1 hp with hp | hp
      · exact Or.inr (hp ▸ List.mem_cons_self _ _)
      · rcases mem_dSet rest k v p hp with hq | hq
        · exact Or.inl hq
        · exact Or.inr (List.mem_cons_of_mem _ hq)

theorem mem_dSet_ne {κ : Type} [DecidableEq κ] {β : Type}
    (m : List (κ × β)) (k : κ) (v : β) (p : κ × β)
    (hp : p ∈ dSet m k v) (hne : p.1 ≠ k) : p ∈ m := by
  rcases mem_dSet m k v p hp with h | h
  · exact absurd (by rw [h]) hne
  · exact h

theorem mem_dSet_eq {κ : Type} [DecidableEq κ] {β : Type} :
    ∀ (m : List (κ × β)), (dKeys m).Nodup → ∀ (k : κ) (v : β) (p : κ × β),
      p ∈ dSet m k v → p.1 = k → p = (k, v)
  | [], _, k, v, p, hp, _ => by
    rw [dSet] at hp
    exact List.mem_singleton.1 hp
  | (k0, v0) :: rest, hnd, k, v, p, hp, hpk => by
    rw [dKeys_cons, List.nodup_cons] at hnd
    rw [dSet] at hp
    by_cases h : k0 = k
    · rw [if_pos h] at hp
      rcases List.mem_cons.1 hp with hp | hp
      · exact hp
      · exfalso
        apply hnd.1
        have hm : p.1 ∈ dKeys rest := List.mem_map.2 ⟨p, hp, rfl⟩
        rw [hpk] at hm
        rw [h]
        exact hm
    · rw [if_neg h] at hp
      rcases List.mem_cons.1 hp with hp | hp
      · exfalso
        have h0 : p.1 = k0 := by rw [hp]
        exact h (h0.symm.trans hpk)
      · exact mem_dSet_eq rest hnd.2 k v p hp hpk

theorem dKeys_dSet_nodup {κ : Type} [DecidableEq κ] {β : Type} :
    ∀ (m : List (κ × β)), (dKeys m).Nodup → ∀ (k : κ) (v : β),
      (dKeys (dSet m k v)).Nodup
  | [], _, k, v => by simp [dSet, dKeys]
  | (k0, v0) :: rest, hnd, k, v => by
    rw [dKeys_cons, List.nodup_cons] at hnd
    rw [dSet]
    by_cases h : k0 = k
    · rw [if_pos h, dKeys_cons, List.nodup_cons]
      exact ⟨h ▸ hnd.1, hnd.2⟩
    · rw [if_neg h, dKeys_cons, List.nodup_cons]
      refine ⟨?_, dKeys_dSet_nodup rest hnd.2 k v⟩
      intro hin
      rcases List.mem_append.1 (dKeys_dSet_sub rest k v hin) with hc | hc
      · exact hnd.1 hc
      · rw [List.mem_singleton] at hc
        exact h hc

theorem dGet_bound {κ : Type} [DecidableEq κ] {β : Type} (P : β → Prop) :
    ∀ (m : List (κ × β)) (k : κ) (d : β), (∀ p ∈ m, P p.2) → P d →
      P (dGet m k d)
  | [], _, _, _, hd => hd
  | (k0, v0) :: rest, k, d, hm, hd => by
    rw [dGet]
    by_cases h : k0 = k
    · rw [if_pos h]
      exact hm (k0, v0) (List.mem_cons_self _ _)
    · rw [if_neg h]
      exact dGet_bound P rest k d
        (fun p hp => hm p (List.mem_cons_of_mem _ hp)) hd

theorem dGet_mem {κ : Type} [DecidableEq κ] {β : Type} :
    ∀ (m : List (κ × β)) (k : κ) (d : β), k ∈ dKeys m →
      ∃ p ∈ m, dGet m k d = p.2
  | [], k, d, h => by simp [dKeys] at h
  | (k0, v0) :: rest, k, d, h => by
    rw [dGet]
    by_cases hk : k0 = k
    · rw [if_pos hk]
      exact ⟨(k0, v0), List.mem_cons_self _ _, rfl⟩
    · rw [if_neg hk]
      have h' : k ∈ dKeys rest := by
        rcases List.mem_cons.1 h with h | h
        · exact absurd h.symm hk
        · exact h
      obtain ⟨p, hp, he⟩ := dGet_mem rest k d h'
      exact ⟨p, List.mem_cons_of_mem _ hp, he⟩

theorem foldl_keys_nodup_of {κ β α : Type}
    (g : List (κ × β) → α → List (κ × β))
    (hg : ∀ m a, (dKeys m).Nodup → (dKeys (g m a)).Nodup) :
    ∀ (L : List α) (m : List (κ × β)), (dKeys m).Nodup →
      (dKeys (L.foldl g m)).Nodup
  | [], _, h => h
  | a :: L', m, h => foldl_keys_nodup_of g hg L' (g m a) (hg m a h)

theorem foldl_keys_mono_of {κ β α : Type}
    (g : List (κ × β) → α → List (κ × β))
    (hg : ∀ m a, dKeys m ⊆ dKeys (g m a)) :
    ∀ (L : List α) (m : List (κ × β)), dKeys m ⊆ dKeys (L.foldl g m)
  | [], _ => fun _ ha => ha
  | x :: L', m => fun _ ha => foldl_keys_mono_of g hg L' (g m x) (hg m x ha)

theorem foldl_dSet_mem_keys {κ β α : Type} [DecidableEq κ] (key : α → κ)
    (val : List (κ × β) → α → β) :
    ∀ (L : List α) (m : List (κ × β)) (a : α), a ∈ L →
      key a ∈ dKeys (L.foldl (fun acc x => dSet acc (key x) (val acc x)) m)
  | [], _, a, ha => absurd ha (List.not_mem_nil a)
  | x :: L', m, a, ha => by
    rw [List.foldl_cons]
    rcases List.mem_cons.1 ha with ha | ha
    · subst ha
      exact foldl_keys_mono_of _
        (fun m' b => dKeys_sub_dSet m' (key b) (val m' b)) L' _
        (mem_dKeys_dSet_self m (key a) (val m a))
    · exact foldl_dSet_mem_keys key val L' _ a ha

/-- Folding fixed-value writes preserves an upper bound on all stored
values. -/
theorem foldl_dSet_val_bound {κ α : Type} [DecidableEq κ] (key : α → κ)
    (val : α → Int) (B : Int) (hB : ∀ a, val a ≤ B) :
    ∀ (L : List α) (m : List (κ × Int)), (∀ p ∈ m, p.2 ≤ B) →
      ∀ p ∈ L.foldl (fun acc a => dSet acc (key a) (val a)) m, p.2 ≤ B
  | [], _, hm, p, hp => hm p hp
  | a :: L', m, hm, p, hp => by
    rw [List.foldl_cons] at hp
    refine foldl_dSet_val_bound key val B hB L' _ ?_ p hp
    intro q hq
    rcases mem_dSet m (key a) (val a) q hq with hq | hq
    · rw [hq]
      exact hB a
    · exact hm q hq

/-- Folding `get - C` updates over a key list that covers every stored key
pushes every stored value below `B - C`. -/
theorem foldl_dSet_sub_bound {κ : Type} [DecidableEq κ] (B C : Int)
    (hB : 0 ≤ B) (hC : 0 ≤ C) :
    ∀ (K : List κ) (m : List (κ × Int)), (dKeys m).Nodup →
      (∀ p ∈ m, p.2 ≤ B ∧ (p.1 ∈ K ∨ p.2 ≤ B - C)) →
      ∀ p ∈ K.foldl (fun acc k => dSet acc k (dGet acc k 0 - C)) m,
        p.2 ≤ B - C
  | [], m, _, hm, p, hp => by
    rcases (hm p hp).2 with h | h
    · simp at h
    · exact h
  | k :: K', m, hnd, hm, p, hp => by
    rw [List.foldl_cons] at hp
    refine foldl_dSet_sub_bound B C hB hC K' _
      (dKeys_dSet_nodup m hnd k _) ?_ p hp
    intro q hq
    have hget : dGet m k 0 ≤ B :=
      dGet_bound (fun x => x ≤ B) m k 0 (fun r hr => (hm r hr).1) hB
    by_cases hqk : q.1 = k
    · have he := mem_dSet_eq m hnd k _ q hq hqk
      constructor
      · rw [he]
        show dGet m k 0 - C ≤ B
        omega
      · right
        rw [he]
        show dGet m k 0 - C ≤ B - C
        omega
    · have hq' := mem_dSet_ne m k _ q hq hqk
      refine ⟨(hm q hq').1, ?_⟩
      rcases (hm q hq').2 with h | h
      · rcases List.mem_cons.1 h with h | h
        · exact absurd h hqk
        · exact Or.inl h
      · exact Or.inr h

/-- Folding guarded `get + δ` updates with `δ ≤ 0` preserves an upper bound
on all stored values. -/
theorem foldl_guard_dSet_val_le {κ : Type} [DecidableEq κ] (B δ : Int)
    (hδ : δ ≤ 0) :
    ∀ (K : List κ) (m : List (κ × Int)), (∀ p ∈ m, p.2 ≤ B) →
      ∀ p ∈ K.foldl (fun acc k =>
          if k ∈ dKeys acc then dSet acc k (dGet acc k 0 + δ) else acc) m,
        p.2 ≤ B
  | [], _, hm, p, hp => hm p hp
  | k :: K', m, hm, p, hp => by
    rw [List.foldl_cons] at hp
    refine foldl_guard_dSet_val_le B δ hδ K' _ ?_ p hp
    intro q hq
    by_cases hk : k ∈ dKeys m
    · rw [if_pos hk] at hq
      rcases mem_dSet m k _ q hq with hq | hq
      · obtain ⟨r, hr, he⟩ := dGet_mem m k 0 hk
        rw [hq]
        show dGet m k 0 + δ ≤ B
        have hrB := hm r hr
        omega
      · exact hm q hq
    · rw [if_neg hk] at hq
      exact hm q hq

/-- Phase 1 writes only values at most 20: the reward is
`-(importance + match * 20)` with `importance ≥ 0` and `match ≥ -1`. -/
theorem phase1_val_le (requests : List Request) (hosts : List Host) :
    ∀ p ∈ phase1 requests hosts, p.2 ≤ 20 := by
  rw [phase1_eq_fold]
  refine foldl_dSet_val_bound linKey rewardOf 20 ?_
    (allTriples requests hosts) [] ?_
  · intro t
    have h1 := importanceOf_nonneg t.1
    have h2 := checkExpertiseMatch_ge t.1 t.2.1
    unfold rewardOf
    omega
  · intro p hp
    simp at hp

theorem phase1_keys_nodup (requests : List Request) (hosts : List Host) :
    (dKeys (phase1 requests hosts)).Nodup := by
  rw [phase1_eq_fold]
  refine foldl_keys_nodup_of _ ?_ (allTriples requests hosts) []
    (by simp [dKeys])
  intro m t hm
  exact dKeys_dSet_nodup m hm _ _

/-- The phase-2 linear loop, flattened over the full key list. -/
theorem phase2lin_eq_fold (requests : List Request) (hosts : List Host)
    (m : List (String × Int)) :
    phase2lin requests hosts m =
      (allKeys requests hosts).foldl
        (fun acc v => dSet acc v (dGet acc v 0 - penaltyMultipleAssignments))
        m := by
  simp only [phase2lin]
  rw [← foldl_flatMap (fun r => reqVars r hosts)
    (fun acc v => dSet acc v (dGet acc v 0 - penaltyMultipleAssignments))
    requests, flatMap_reqVars]

/-- After phase 2, every stored linear value is at most -480, on every
input: every phase-1 key is hit by at least one -500 one-hot term. -/
theorem phase2lin_val_le (requests : List Request) (hosts : List Host) :
    ∀ p ∈ phase2lin requests hosts (phase1 requests hosts), p.2 ≤ -480 := by
  rw [phase2lin_eq_fold]
  have hpen : penaltyMultipleAssignments = 500 := rfl
  have hinv : ∀ p ∈ phase1 requests hosts,
      p.2 ≤ 20 ∧ (p.1 ∈ allKeys requests hosts ∨
        p.2 ≤ 20 - penaltyMultipleAssignments) := by
    intro p hp
    exact ⟨phase1_val_le requests hosts p hp,
      Or.inl (phase1_keys_sub requests hosts (List.mem_map.2 ⟨p, hp, rfl⟩))⟩
  intro p hp
  have hres := foldl_dSet_sub_bound 20 penaltyMultipleAssignments
    (by norm_num) (by rw [hpen]; norm_num) (allKeys requests hosts)
    (phase1 requests hosts) (phase1_keys_nodup requests hosts) hinv p hp
  omega

/-- Phase 4 only lowers values, so the -480 bound survives it. -/
theorem buildLinear_val_le (requests : List Request) (hosts : List Host) :
    ∀ p ∈ buildLinear requests hosts, p.2 ≤ -480 := by
  rw [buildLinear, phase4_eq_fold]
  exact foldl_guard_dSet_val_le (-480) (-10) (by norm_num) _ _
    (phase2lin_val_le requests hosts)

theorem phase2lin_keys_mono (requests : List Request) (hosts : List Host)
    (m : List (String × Int)) :
    dKeys m ⊆ dKeys (phase2lin requests hosts m) := by
  rw [phase2lin_eq_fold]
  refine foldl_keys_mono_of _ ?_ (allKeys requests hosts) m
  intro m' v
  exact dKeys_sub_dSet m' v _

theorem phase4_keys_mono (requests : List Request) (hosts : List Host)
    (m : List (String × Int)) :
    dKeys m ⊆ dKeys (phase4 requests hosts m) := by
  rw [phase4_eq_fold]
  refine foldl_keys_mono_of _ ?_ _ m
  intro m' v
  dsimp only
  split
  · exact dKeys_sub_dSet _ _ _
  · exact fun a ha => ha

/-- Any produced model with requests and hosts has a linear coefficient of
magnitude at least 480 (the folded one-hot penalty dominates), on every
input, colliding ids included, so `2 * max|linear| ≥ 960`. -/
theorem maxLinAbs_large_all {requests : List Request} {hosts : List Host}
    (hreq : requests ≠ []) (hhost : hosts ≠ []) :
    960 ≤ 2 * maxLinAbs (buildModel requests hosts) := by
  obtain ⟨r, rs, hre⟩ := List.exists_cons_of_ne_nil hreq
  obtain ⟨h, hs, hhe⟩ := List.exists_cons_of_ne_nil hhost
  have hkey : linKey (r, h, 0) ∈ dKeys (buildLinear requests hosts) := by
    have h1 : linKey (r, h, 0) ∈ dKeys (phase1 requests hosts) := by
      rw [phase1_eq_fold]
      exact foldl_dSet_mem_keys linKey (fun _ t => rewardOf t)
        (allTriples requests hosts) [] (r, h, 0)
        (mem_allTriples.2 ⟨hre ▸ List.mem_cons_self _ _,
          hhe ▸ List.mem_cons_self _ _, Nat.succ_pos 55⟩)
    exact phase4_keys_mono requests hosts _
      (phase2lin_keys_mono requests hosts _ h1)
  simp only [dKeys] at hkey
  rcases List.mem_map.1 hkey with ⟨p, hp, -⟩
  have hv := buildLinear_val_le requests hosts p hp
  have habs : |p.2| ∈ (buildModel requests hosts).linear.map fun q => |q.2| :=
    List.mem_map.2 ⟨p, hp, rfl⟩
  have hle := le_foldr_max _ _ habs
  have h480 : 480 ≤ |p.2| := by
    rw [abs_of_nonpos (by omega)]
    omega
  unfold maxLinAbs
  omega

/-- Any produced model with requests and hosts has a linear coefficient of
magnitude at least 480 (the folded one-hot penalty dominates), so
`2 * max|linear| ≥ 960`. -/
theorem maxLinAbs_large {requests : List Request} {hosts : List Host}
    (hg : GoodIds requests hosts) (hreq : requests ≠ []) (hhost : hosts ≠ []) :
    960 ≤ 2 * maxLinAbs (buildModel requests hosts) := by
  obtain ⟨r, rs, hre⟩ := List.exists_cons_of_ne_nil hreq
  obtain ⟨h, hs, hhe⟩ := List.exists_cons_of_ne_nil hhost
  have hmem : (linKey (r, h, 0), linCoeff (r, h, 0)) ∈
      (buildModel requests hosts).linear := by
    show _ ∈ buildLinear requests hosts
    rw [buildLinear_direct hg]
    refine List.mem_map.2 ⟨(r, h, 0), mem_allTriples.2 ⟨?_, ?_, ?_⟩, rfl⟩
    · rw [hre]
      exact List.mem_cons_self _ _
    · rw [hhe]
      exact List.mem_cons_self _ _
    · exact Nat.succ_pos 55
  have habs : |linCoeff (r, h, 0)| ∈
      (buildModel requests hosts).linear.map fun p => |p.2| :=
    List.mem_map.2 ⟨_, hmem, rfl⟩
  have hle := le_foldr_max _ _ habs
  have hc := linCoeff_le (r, h, 0)
  have h480 : 480 ≤ |linCoeff (r, h, 0)| := by
    rw [abs_of_nonpos (by omega)]
    omega
  unfold maxLinAbs
  omega

/-! ## Orchestrator lemmas -/

theorem classicalFallback_ok (requests : List Request) (hosts : List Host) :
    classicalFallback ⟨some requests, some hosts⟩ =
      .ok (classicalFallbackCore requests hosts) := rfl

theorem optimize_total {pd : ProblemData} {requests : List Request}
    {hosts : List Host} (h1 : pd.requests = some requests)
    (h2 : pd.hosts = some hosts) (sampler : Except String SampleSet) :
    ∃ r, optimize pd sampler = .ok r := by
  unfold optimize optimizeT
  cases hb : optimizeBody pd sampler with
  | ok r => exact ⟨r, rfl⟩
  | error e =>
    refine ⟨classicalFallbackCore requests hosts, ?_⟩
    simp [classicalFallback, h1, h2]

theorem optimize_of_flag {pd : ProblemData} {sampler : Except String SampleSet}
    (h : (optimizeT pd sampler).1 = true) :
    optimize pd sampler = classicalFallback pd := by
  unfold optimize optimizeT at *
  cases hb : optimizeBody pd sampler with
  | ok r => rw [hb] at h; simp at h
  | error e => rfl

/-! ## Concrete sample data for witnesses and counterexamples -/

/-! ## Claim C1 -/

/-- C1 counterexample: at the one-request, one-host spec with importance 90
the produced model's linear coefficients all contain the folded −500
one-hot penalty, so `2·max|linear| ≥ 960 > 500 = P_REQ` and the claimed
invariant `P_HOST > P_REQ > 2·max|linear|` fails. -/
theorem C1_counterexample :
    ¬(penaltyHostConflict > penaltyMultipleAssignments ∧
      penaltyMultipleAssignments > 2 * maxLinAbs (buildModel [rA] [hA])) := by
  intro ⟨_, h2⟩
  have hr : ([rA] : List Request) ≠ [] := by decide
  have hh : ([hA] : List Host) ≠ [] := by decide
  have h960 := maxLinAbs_large_all hr hh
  have hp : penaltyMultipleAssignments = 500 := rfl
  omega

/-- C1 (amended): for every ProblemSpec with non-empty requests and hosts,
the Builder's penalties satisfy `P_HOST > P_REQ`, but the second claimed
inequality is reversed: `2·max(|linear weight|) > P_REQ` always, because
the Builder folds `−P_REQ` into every linear coefficient (each stored
value ends at most −480, colliding ids included). -/
theorem C1_theorem : ∀ (requests : List Request) (hosts : List Host),
    requests ≠ [] → hosts ≠ [] →
    penaltyHostConflict > penaltyMultipleAssignments ∧
    2 * maxLinAbs (buildModel requests hosts) > penaltyMultipleAssignments := by
  intro requests hosts hr hh
  refine ⟨by norm_num [penaltyHostConflict, penaltyMultipleAssignments], ?_⟩
  have h960 := maxLinAbs_large_all hr hh
  have : penaltyMultipleAssignments = 500 := rfl
  omega

/-- C1 witness: the amended statement instantiated at the concrete
one-request, one-host spec. -/
theorem C1_witness :
    ([rA] : List Request) ≠ [] ∧ ([hA] : List Host) ≠ [] ∧
    (penaltyHostConflict > penaltyMultipleAssignments ∧
      2 * maxLinAbs (buildModel [rA] [hA]) > penaltyMultipleAssignments) :=
  ⟨by decide, by decide, C1_theorem [rA] [hA] (by decide) (by decide)⟩

/-! ## Claim C3 -/

/-- C3 counterexample: for request r1 (importance 90, no expertise, no
preferred dates), host h1 and slot 0, the claimed formula gives
`-(90 + 0·W_EXPERTISE + 0·W_PREFERRED) = -90`, but the Builder emits
`-590`: the folded one-hot penalty `−P_REQ` is part of every linear
coefficient. -/
theorem C3_counterexample :
    dGet (buildModel [rA] [hA]).linear (mkVar rA.id hA.id 0) 0 = -590 ∧
    ((-590 : Int) ≠ -(90 + 0 * 20 + 0 * 10)) := by
  constructor
  · have hg : GoodIds [rA] [hA] := by decide
    have hr : rA ∈ [rA] := by decide
    have hh : hA ∈ [hA] := by decide
    have hs : (0 : Nat) < 56 := by decide
    rw [buildLinear_lookup hg hr hh hs]
    decide
  · decide

/-- C3 (amended): for collision-free ids, the linear coefficient emitted
for (r, h, s) is
`-(importance(r) + expertiseBonus(r,h)·20) − P_REQ − (10 if preferredDates
nonempty and s < 24 else 0)`: the one-hot penalty is folded in, and the
preferred bonus depends only on `preferredDates` being nonempty and the
slot lying in the first 3 days, not on a per-request date window. -/
theorem C3_theorem : ∀ (requests : List Request) (hosts : List Host),
    GoodIds requests hosts →
    ∀ r ∈ requests, ∀ h ∈ hosts, ∀ s : Nat, s < 56 →
      dGet (buildModel requests hosts).linear (mkVar r.id h.id s) 0 =
        -(importanceOf r + checkExpertiseMatch r h * 20) -
          penaltyMultipleAssignments -
          (if r.preferredDates ≠ [] ∧ s < 24 then 10 else 0) := by
  intro requests hosts hg r hr h hh s hs
  rw [buildLinear_lookup hg hr hh hs]
  simp [linCoeff, rewardOf]

/-- C3 witness: the amended coefficient formula evaluated at the concrete
spec: the Builder emits −590 for (r1, h1, 0). -/
theorem C3_witness :
    GoodIds [rA] [hA] ∧ rA ∈ [rA] ∧ hA ∈ [hA] ∧ (0 : Nat) < 56 ∧
    dGet (buildModel [rA] [hA]).linear (mkVar rA.id hA.id 0) 0 =
      -(importanceOf rA + checkExpertiseMatch rA hA * 20) -
        penaltyMultipleAssignments -
        (if rA.preferredDates ≠ [] ∧ (0 : Nat) < 24 then 10 else 0) :=
  ⟨by decide, by decide, by decide, by decide,
    C3_theorem [rA] [hA] (by decide) rA (by decide) hA (by decide) 0 (by decide)⟩

/-! ## Claim C4 -/

/-- C4 counterexample: with underscored ids
(requests `a`, `a_b`; hosts `b_7`, `7`) the string variable names collide
(`a_b_7_0` is produced by the two distinct triples (a, b_7, 0) and
(a_b, 7, 0)), so the Builder produces fewer than `n·m·56 = 224`
variables. -/
theorem C4_counterexample :
    (bqmVariables (buildModel [c4reqA, c4reqB] [c4hostA, c4hostB])).length ≠
      [c4reqA, c4reqB].length * [c4hostA, c4hostB].length * 56 := by
  have hle := bqmVariables_length_le [c4reqA, c4reqB] [c4hostA, c4hostB]
  have hTnd : (allTriples [c4reqA, c4reqB] [c4hostA, c4hostB]).Nodup := by
    rw [allTriples_eq_triplesN]
    exact triplesN_nodup numSlots (by decide) (by decide)
  have hcardS :
      (allTriples [c4reqA, c4reqB] [c4hostA, c4hostB]).toFinset.card = 224 := by
    rw [List.toFinset_card_of_nodup hTnd, allTriples_eq_triplesN,
      triplesN_eq_product, List.length_product, List.length_product,
      List.length_range]
    norm_num [numSlots]
  have hmem_a : (c4reqA, c4hostA, (0 : Nat)) ∈
      (allTriples [c4reqA, c4reqB] [c4hostA, c4hostB]).toFinset := by
    rw [List.mem_toFinset, allTriples_eq_triplesN]
    exact mem_triplesN.2 ⟨by decide, by decide, by decide⟩
  have hmem_b : (c4reqB, c4hostB, (0 : Nat)) ∈
      (allTriples [c4reqA, c4reqB] [c4hostA, c4hostB]).toFinset := by
    rw [List.mem_toFinset, allTriples_eq_triplesN]
    exact mem_triplesN.2 ⟨by decide, by decide, by decide⟩
  have hne : ((c4reqA, c4hostA, (0 : Nat)) : Request × Host × Nat) ≠
      (c4reqB, c4hostB, 0) := by decide
  have hkey : linKey (c4reqA, c4hostA, (0 : Nat)) =
      linKey (c4reqB, c4hostB, 0) := rfl
  have hsub :
      (allTriples [c4reqA, c4reqB] [c4hostA, c4hostB]).toFinset.image linKey ⊆
        ((allTriples [c4reqA, c4reqB] [c4hostA, c4hostB]).toFinset.erase
            (c4reqA, c4hostA, (0 : Nat))).image linKey := by
    intro x hx
    rcases Finset.mem_image.1 hx with ⟨t, ht, hxe⟩
    by_cases hta : t = (c4reqA, c4hostA, (0 : Nat))
    · refine Finset.mem_image.2 ⟨(c4reqB, c4hostB, 0), ?_, ?_⟩
      · exact Finset.mem_erase.2 ⟨Ne.symm hne, hmem_b⟩
      · rw [← hxe, hta, hkey]
    · exact Finset.mem_image.2 ⟨t, Finset.mem_erase.2 ⟨hta, ht⟩, hxe⟩
  have hmapfin : (allKeys [c4reqA, c4reqB] [c4hostA, c4hostB]).toFinset =
      (allTriples [c4reqA, c4reqB] [c4hostA, c4hostB]).toFinset.image
        linKey := by
    ext b
    simp [allKeys]
  have hcard : (allKeys [c4reqA, c4reqB] [c4hostA, c4hostB]).toFinset.card ≤
      223 := by
    rw [hmapfin]
    calc ((allTriples [c4reqA, c4reqB] [c4hostA, c4hostB]).toFinset.image
            linKey).card
        ≤ (((allTriples [c4reqA, c4reqB] [c4hostA, c4hostB]).toFinset.erase
              (c4reqA, c4hostA, (0 : Nat))).image linKey).card :=
          Finset.card_le_card hsub
      _ ≤ ((allTriples [c4reqA, c4reqB] [c4hostA, c4hostB]).toFinset.erase
              (c4reqA, c4hostA, (0 : Nat))).card := Finset.card_image_le
      _ ≤ 223 := by
          rw [Finset.card_erase_of_mem hmem_a, hcardS]
  intro h
  simp only [List.length_cons, List.length_nil] at h
  omega

/-- C4 (amended): provided request and host ids are collision-free under
the string encoding (pairwise distinct and underscore-free), the Builder
produces exactly `n·m·56` variables, and every quadratic key joins two
distinct variables that share their requestId or their (hostId, slot)
pair; with underscores in ids the encoding collides and the variable count
drops. -/
theorem C4_theorem : ∀ (requests : List Request) (hosts : List Host),
    GoodIds requests hosts →
    (bqmVariables (buildModel requests hosts)).length =
      requests.length * hosts.length * 56 ∧
    ∀ p ∈ (buildModel requests hosts).quadratic,
      QuadKeyOK requests hosts p.1 := by
  intro requests hosts hg
  refine ⟨bqmVariables_length hg, ?_⟩
  intro p hp
  exact quadKey_ok hg p.1 (List.mem_map.2 ⟨p, hp, rfl⟩)

/-- C4 witness: the amended statement instantiated at the concrete
one-request, one-host spec (56 variables). -/
theorem C4_witness :
    GoodIds [rA] [hA] ∧
    ((bqmVariables (buildModel [rA] [hA])).length =
        [rA].length * [hA].length * 56 ∧
      ∀ p ∈ (buildModel [rA] [hA]).quadratic, QuadKeyOK [rA] [hA] p.1) :=
  ⟨by decide, C4_theorem [rA] [hA] (by decide)⟩

/-! ## Claim C2 -/

/-- C2: for every input, neither greedy fallback (the D-Wave backend's nor
the hybrid backend's) ever activates two assignments that share the same
(hostId, slot) pair. -/
theorem C2_theorem : ∀ (requests : List Request) (hosts : List Host),
    (fbTriples requests hosts).Pairwise
      (fun a b => ¬(a.2.1 = b.2.1 ∧ a.2.2 = b.2.2)) ∧
    (hybTriples requests hosts).Pairwise
      (fun a b => ¬(a.2.1 = b.2.1 ∧ a.2.2 = b.2.2)) := by
  intro requests hosts
  constructor
  · exact (fbLoop_pairwise hosts (fbSorted requests) 0 []).imp
      fun hlt hshare => absurd hshare.2 (Nat.ne_of_lt hlt)
  · exact hybLoop_pairwise hosts _ []

/-! ## Claim C5 -/

/-- C5 counterexample: at the valid ProblemSpec with empty request and host
lists and a raising solver, the optimization call does return a FALLBACK
result, but that result carries no `schedule` key at all (the fallback dict
of `_classical_fallback` never sets one), contradicting "contains a usable
schedule". -/
theorem C5_counterexample :
    optimize ⟨some [], some []⟩ (.error "solver raised") =
      .ok (classicalFallbackCore [] ([] : List Host)) ∧
    (classicalFallbackCore [] ([] : List Host)).status = "FALLBACK" ∧
    (classicalFallbackCore [] ([] : List Host)).schedule = none ∧
    (optimizeT (⟨some [], some []⟩ : ProblemData) (.error "solver raised")).1 =
      true :=
  ⟨rfl, rfl, rfl, rfl⟩

/-- C5 (amended): for every ProblemSpec with requests and hosts present,
the optimization call always returns a Result (never an exception), and
whenever the try-block fails (so the except handler invoked the fallback)
the returned Result has status FALLBACK but carries no `schedule` key:
the fallback dict contains only the raw solution assignment. -/
theorem C5_theorem : ∀ (pd : ProblemData) (requests : List Request)
    (hosts : List Host) (sampler : Except String SampleSet),
    pd.requests = some requests → pd.hosts = some hosts →
    (∃ r, optimize pd sampler = .ok r) ∧
    ((optimizeT pd sampler).1 = true →
      ∃ r, optimize pd sampler = .ok r ∧ r.status = "FALLBACK" ∧
        r.schedule = none) := by
  intro pd requests hosts sampler h1 h2
  refine ⟨optimize_total h1 h2 sampler, ?_⟩
  intro hflag
  refine ⟨classicalFallbackCore requests hosts, ?_, rfl, rfl⟩
  rw [optimize_of_flag hflag]
  have hpd : pd = ⟨some requests, some hosts⟩ := by
    cases pd
    simp_all
  rw [hpd]
  rfl

/-- C5 witness: the amended statement at a concrete one-request spec with a
raising solver. -/
theorem C5_witness :
    (⟨some [rA], some [hA]⟩ : ProblemData).requests = some [rA] ∧
    (⟨some [rA], some [hA]⟩ : ProblemData).hosts = some [hA] ∧
    ((∃ r, optimize ⟨some [rA], some [hA]⟩ (.error "solver raised") = .ok r) ∧
      ((optimizeT ⟨some [rA], some [hA]⟩ (.error "solver raised")).1 = true →
        ∃ r, optimize ⟨some [rA], some [hA]⟩ (.error "solver raised") = .ok r ∧
          r.status = "FALLBACK" ∧ r.schedule = none)) :=
  ⟨rfl, rfl, C5_theorem _ [rA] [hA] (.error "solver raised") rfl rfl⟩

/-! ## Claim C6 -/

/-- C6 counterexample: the Decoder's activity test is `value == 1`, not
`> 0.5`: the entry `("r1_h1_0", 2)` has value exceeding 0.5, valid shape
and resolvable ids, yet decodes to the empty schedule, while value 1
decodes to one meeting; and decoding throws (ValueError) on a non-integer
third component rather than skipping it. -/
theorem C6_counterexample :
    decodeSolution [("r1_h1_0", 2)] [rA] [hA] = .ok [] ∧
    ((1 : Rat) / 2 < 2) ∧
    decodeSolution [("r1_h1_0", 1)] [rA] [hA] = .ok [meetingOf rA hA 0] ∧
    decodeSolution [("r1_h1_x", 1)] [rA] [hA] =
      .error "ValueError: invalid literal for int()" ∧
    decodeSolution [("r1_h1_24000000", 1)] [rA] [hA] =
      .error "OverflowError: date value out of range" :=
  ⟨rfl, by norm_num, rfl, rfl, rfl⟩

/-- C6 (amended): the Decoder treats an entry as active exactly when its
value equals 1; entries that are inactive or have fewer than 3
`_`-separated components are skipped silently, so decoding a Sample equals
decoding its filtered active, well-shaped entries (first conjunct); and an
active, well-shaped entry with integer slot whose requestId or hostId
lookup fails is likewise skipped silently (second conjunct).  There is no
diagnostics counter; decoding can still throw, on a non-integer third
component (ValueError) or an out-of-range computed date (OverflowError). -/
theorem C6_theorem :
    (∀ (sol : List (String × Rat)) (requests : List Request)
      (hosts : List Host),
      decodeSolution sol requests hosts =
        decodeSolution (sol.filter fun e =>
          decide (e.2 = 1 ∧ 3 ≤ (splitChars '_' e.1.data).length))
          requests hosts) ∧
    (∀ (reqMap : String → Option Request) (hostMap : String → Option Host)
      (k : String) (rest : List (String × Rat)) (slot : Int),
      3 ≤ (splitChars '_' k.data).length →
      pyInt ((splitChars '_' k.data).getD 2 []) = some slot →
      (reqMap ⟨(splitChars '_' k.data).getD 0 []⟩ = none ∨
        hostMap ⟨(splitChars '_' k.data).getD 1 []⟩ = none) →
      decodeItems reqMap hostMap ((k, 1) :: rest) =
        decodeItems reqMap hostMap rest) :=
  ⟨fun sol _ _ => decodeItems_filter _ _ sol,
    fun reqMap hostMap k rest slot h1 h2 h3 =>
      decodeItems_skip_lookup reqMap hostMap k rest slot h1 h2 h3⟩

/-- C6 witness: the skip-on-failed-lookup conjunct exercised at a concrete
entry whose requestId `rX` resolves to no request. -/
theorem C6_witness :
    3 ≤ (splitChars '_' ("rX_h1_0" : String).data).length ∧
    pyInt ((splitChars '_' ("rX_h1_0" : String).data).getD 2 []) = some 0 ∧
    reqLookup [rA] ⟨(splitChars '_' ("rX_h1_0" : String).data).getD 0 []⟩ =
      none ∧
    decodeItems (reqLookup [rA]) (hostLookup [hA]) [("rX_h1_0", 1)] =
      decodeItems (reqLookup [rA]) (hostLookup [hA]) [] :=
  ⟨by decide, by decide, by decide,
    C6_theorem.2 (reqLookup [rA]) (hostLookup [hA]) "rX_h1_0" [] 0
      (by decide) (by decide) (Or.inl (by decide))⟩

/-! ## Claim C7 -/

/-- C7: for every ProblemSpec and every Sample whose active variables parse
to triples forming exactly one active variable per request (a permutation
of the request ids), with resolvable hosts, slots in [0, 56) and no two
active variables sharing a (host, slot), the Decoder succeeds with exactly
`n` meetings whose date/startTime/endTime are the fixed slot mapping
(`slotDateStr`, anchored at 2025-11-15 with day = slot div 8, and the
8-entry `timeMapping` table) applied to that variable's slot. -/
theorem C7_theorem : ∀ (requests : List Request) (hosts : List Host)
    (sol : List (String × Rat)) (L : List (String × String × Int)),
    (activeKeys sol).map parseVar = L.map some →
    List.Perm (L.map fun t => t.1) (requests.map Request.id) →
    (∀ t ∈ L, t.2.1 ∈ hosts.map Host.id) →
    (∀ t ∈ L, 0 ≤ t.2.2 ∧ t.2.2 < 56) →
    L.Pairwise (fun a b => ¬(a.2.1 = b.2.1 ∧ a.2.2 = b.2.2)) →
    ∃ ms, decodeSolution sol requests hosts = .ok ms ∧
      ms.length = requests.length ∧
      List.Forall₂ (fun t m_ => m_.slot = t.2.2 ∧
        some m_.date = slotDateStr (t.2.2.fdiv 8) ∧
        m_.startTime = (timeMapping.getD (t.2.2.emod 8).toNat ("", "")).1 ∧
        m_.endTime = (timeMapping.getD (t.2.2.emod 8).toNat ("", "")).2)
        L ms := by
  intro requests hosts sol L hparse hperm hhost hslot _
  have hreq : ∀ t ∈ L, (reqLookup requests t.1).isSome := fun t ht =>
    reqLookup_isSome (hperm.subset (List.mem_map.2 ⟨t, ht, rfl⟩))
  have hhost2 : ∀ t ∈ L, (hostLookup hosts t.2.1).isSome := fun t ht =>
    hostLookup_isSome (hhost t ht)
  have hdec := decodeItems_wf (reqLookup requests) (hostLookup hosts) sol L
    hparse hreq hhost2 hslot
  refine ⟨L.map (meetingAt (reqLookup requests) (hostLookup hosts)), hdec,
    ?_, ?_⟩
  · rw [List.length_map]
    have hl := hperm.length_eq
    rw [List.length_map, List.length_map] at hl
    exact hl
  · rw [List.forall₂_map_right_iff, List.forall₂_same]
    intro t ht
    obtain ⟨req, hreqe⟩ := Option.isSome_iff_exists.1 (hreq t ht)
    obtain ⟨host, hhoste⟩ := Option.isSome_iff_exists.1 (hhost2 t ht)
    have hm : meetingAt (reqLookup requests) (hostLookup hosts) t =
        meetingOf req host t.2.2 := by
      unfold meetingAt
      rw [hreqe, hhoste]
    rw [hm]
    obtain ⟨h0, h56⟩ := hslot t ht
    obtain ⟨dstr, hdstr⟩ :=
      Option.isSome_iff_exists.1 (slotDate_ok t.2.2 h0 h56)
    refine ⟨rfl, ?_, rfl, rfl⟩
    show some ((slotDateStr (t.2.2.fdiv 8)).getD "") = slotDateStr (t.2.2.fdiv 8)
    rw [hdstr]
    rfl

/-- C7 witness: the statement instantiated at a concrete two-request
Sample. -/
theorem C7_witness :
    ((activeKeys c7sol).map parseVar = c7L.map some) ∧
    List.Perm (c7L.map fun t => t.1) ([rA, rB].map Request.id) ∧
    (∀ t ∈ c7L, t.2.1 ∈ [hA].map Host.id) ∧
    (∀ t ∈ c7L, 0 ≤ t.2.2 ∧ t.2.2 < 56) ∧
    c7L.Pairwise (fun a b => ¬(a.2.1 = b.2.1 ∧ a.2.2 = b.2.2)) ∧
    ∃ ms, decodeSolution c7sol [rA, rB] [hA] = .ok ms ∧
      ms.length = [rA, rB].length ∧
      List.Forall₂ (fun t m_ => m_.slot = t.2.2 ∧
        some m_.date = slotDateStr (t.2.2.fdiv 8) ∧
        m_.startTime = (timeMapping.getD (t.2.2.emod 8).toNat ("", "")).1 ∧
        m_.endTime = (timeMapping.getD (t.2.2.emod 8).toNat ("", "")).2)
        c7L ms :=
  ⟨by decide, by decide, by decide, by decide, by decide,
    C7_theorem [rA, rB] [hA] c7sol c7L (by decide) (by decide) (by decide)
      (by decide) (by decide)⟩

/-! ## Claim C8 -/

/-- C8 counterexample: on requests r1 (importance 90) and r2 (importance
50) with host h1, the fallback's energy is −100, not the claimed −140: the
energy sums `importanceScore` (absent in this input, so the default 50 is
used twice), not `importance`. -/
theorem C8_counterexample :
    (classicalFallbackCore [rA, rB] [hA]).energy = -100 ∧
    ((-100 : Rat) ≠ -140) := by
  have h : (classicalFallbackCore [rA, rB] [hA]).energy =
      -((((50 : Nat) : Rat)) + ((((50 : Nat) : Rat)) + 0)) := rfl
  rw [h]
  norm_num

/-- C8 (amended): the fallback assigns r1 to (h1, slot 0) and r2 to
(h1, slot 1) as claimed, but its energy is −100 = −(50 + 50): it sums the
`importanceScore` field (absent here, defaulting to 50), not the
`importance` field the Builder uses. -/
theorem C8_theorem :
    fbTriples [rA, rB] [hA] = [("r1", "h1", 0), ("r2", "h1", 1)] ∧
    (classicalFallbackCore [rA, rB] [hA]).energy = -100 ∧
    rA.importanceScore.getD 50 = 50 ∧ rB.importanceScore.getD 50 = 50 := by
  refine ⟨rfl, ?_, rfl, rfl⟩
  have h : (classicalFallbackCore [rA, rB] [hA]).energy =
      -((((50 : Nat) : Rat)) + ((((50 : Nat) : Rat)) + 0)) := rfl
  rw [h]
  norm_num

/-! ## Claim C9 -/

/-- C9 counterexample: on problemData lacking the `requests` field, the
except handler does invoke the greedy fallback (the ghost flag is true),
and the optimization call then propagates the fallback's own KeyError
instead of terminating in an ERROR state itself. -/
theorem C9_counterexample :
    (optimizeT ⟨none, some [hA]⟩ (.ok ⟨[], 0⟩)).1 = true ∧
    optimize ⟨none, some [hA]⟩ (.ok ⟨[], 0⟩) = .error "KeyError: requests" :=
  ⟨rfl, rfl⟩

/-- C9 (amended): when `requests` or `hosts` is absent, the KeyError from
`_build_bqm` is caught and the greedy fallback *is* invoked; the fallback
raises the same KeyError, which propagates out of the optimization call,
and only the CLI wrapper turns it into an ERROR result with no schedule.
Empty `requests`/`hosts` lists are valid and produce steps through an empty
model rather than an error. -/
theorem C9_theorem : ∀ (ho : Option (List Host)) (rs : List Request)
    (sampler : Except String SampleSet),
    (optimizeT ⟨none, ho⟩ sampler).1 = true ∧
    optimize ⟨none, ho⟩ sampler = .error "KeyError: requests" ∧
    (runMain ⟨none, ho⟩ sampler).status = "ERROR" ∧
    (runMain ⟨none, ho⟩ sampler).schedule = none ∧
    (optimizeT ⟨some rs, none⟩ sampler).1 = true ∧
    optimize ⟨some rs, none⟩ sampler = .error "KeyError: hosts" ∧
    (runMain ⟨some rs, none⟩ sampler).status = "ERROR" ∧
    (runMain ⟨some rs, none⟩ sampler).schedule = none ∧
    buildBQM ⟨some [], some []⟩ = .ok (buildModel [] []) ∧
    buildModel [] [] = ⟨[], []⟩ :=
  fun _ _ _ => ⟨rfl, rfl, rfl, rfl, rfl, rfl, rfl, rfl, rfl, rfl⟩

/-! ## Claim C10 -/

/-- C10: the D-Wave backend's greedy fallback activates variables only for
the first host in input order, and schedules at most 56 requests in total
regardless of how many hosts are available (occupancy is tracked by the
global slot index alone). -/
theorem C10_theorem : ∀ (requests : List Request) (hosts : List Host),
    (∀ t ∈ fbTriples requests hosts,
      ∃ h0 rest, hosts = h0 :: rest ∧ t.2.1 = h0.id) ∧
    (fbTriples requests hosts).length ≤ 56 := by
  intro requests hosts
  refine ⟨fun t ht => fbLoop_first_host hosts (fbSorted requests) 0 [] t ht, ?_⟩
  show (fbLoop hosts (fbSorted requests) 0 []).length ≤ 56
  have := fbLoop_length hosts (fbSorted requests) 0 []
  omega

/-- C10 witness: the statement at the two-request one-host example. -/
theorem C10_witness :
    (∃ h0 rest, [hA] = h0 :: rest ∧
      (("r1", "h1", 0) : String × String × Nat).2.1 = h0.id) ∧
    (fbTriples [rA, rB] [hA]).length ≤ 56 :=
  ⟨(C10_theorem [rA, rB] [hA]).1 ("r1", "h1", 0) (by decide),
    (C10_theorem [rA, rB] [hA]).2⟩

end DWaveSched
